import Mathlib

/-!
Verification of the reconciliation engine of `gh_sync_issues.py`.

The development shallowly embeds the Python source:

* Python runtime values that can appear as issue-field values are modelled by
  `PyVal` (Python `None`, `int`, `str`, `list[str]`); strings are lists of
  characters so that `str.replace("\r\n", "\n")` can be reasoned about
  directly.
* The `Issue` dataclass (with its `dirty` list created in `__post_init__`)
  becomes the structure `Issue`; `Issue.update`, `Issue.to_dict`,
  `Issue._dirty_dict` and the keyword constructor `Issue(**d)` are translated
  one-to-one.
* The GitHub remote is the external collaborator: it is modelled as a list of
  `RemoteIssue`s together with `findIssue` (`repo.get_issue`), `editRemote`
  (`gh_issue.edit`) and `createRemote` (`repo.create_issue`).  The edit/create
  operations validate their keyword arguments the way the real client library
  does (string fields must receive strings, list fields lists of strings,
  unexpected keywords are a `TypeError`) and otherwise store the transmitted
  values verbatim.
* The `push` command's loop becomes `pushStep`/`pushLoop`/`push`, returning
  the ordered list of create/update actions, the final remote state, the
  final in-memory record list (with newly assigned numbers inserted), the
  `new_issues_added` flag, whether the input file was rewritten, and the
  first error if one was raised (an exception aborts the loop and skips the
  file rewrite, exactly as in the source).
* `int(issue["number"])` is modelled as succeeding only on integer values; a
  non-integer `number` value aborts the run in the model just as it
  (slightly later, at the `edit` call where `number` is an unexpected
  keyword) aborts the real program.
-/

namespace GhSync

/-- A Python value that can occur as the value of an issue field:
`None`, an `int`, a `str` (as a list of characters), or a `list[str]`. -/
inductive PyVal where
  | none : PyVal
  | int : Int → PyVal
  | str : List Char → PyVal
  | list : List (List Char) → PyVal
deriving DecidableEq, Repr

/-- Python `s.replace("\r\n", "\n")`: replace every non-overlapping
occurrence of CR-LF by LF, scanning left to right. -/
def replaceCRLF : List Char → List Char
  | [] => []
  | [c] => [c]
  | c1 :: c2 :: rest =>
    if c1 = '\r' ∧ c2 = '\n' then '\n' :: replaceCRLF rest
    else c1 :: replaceCRLF (c2 :: rest)

/-- The normalisation `comp_newline` applies to each argument:
strings get their CR-LF sequences rewritten, everything else is unchanged. -/
def normPy : PyVal → PyVal
  | .str s => .str (replaceCRLF s)
  | v => v

/-- `comp_newline(a, b)`: compare two values after newline normalisation. -/
def comp_newline (a b : PyVal) : Bool :=
  decide (normPy a = normPy b)

/-- The five dataclass fields of `Issue`. -/
inductive Field where
  | number | title | body | assignees | labels
deriving DecidableEq, Repr

/-- The Python name of a field. -/
def fieldName : Field → String
  | .number => "number"
  | .title => "title"
  | .body => "body"
  | .assignees => "assignees"
  | .labels => "labels"

/-- Recognise a string as the name of a dataclass field
(the membership test `k not in field_names` in `Issue.update`,
and the keyword check of the dataclass constructor). -/
def fieldOfName (k : String) : Option Field :=
  if k = "number" then some .number
  else if k = "title" then some .title
  else if k = "body" then some .body
  else if k = "assignees" then some .assignees
  else if k = "labels" then some .labels
  else none

/-- The `Issue` dataclass: five optional fields (Python `None` meaning
absent) plus the `dirty` list installed by `__post_init__`. -/
structure Issue where
  number : PyVal := .none
  title : PyVal := .none
  body : PyVal := .none
  assignees : PyVal := .none
  labels : PyVal := .none
  dirty : List String := []
deriving DecidableEq, Repr

/-- `getattr(self, k)` for a dataclass field. -/
def getF (i : Issue) : Field → PyVal
  | .number => i.number
  | .title => i.title
  | .body => i.body
  | .assignees => i.assignees
  | .labels => i.labels

/-- `setattr(self, k, v)` for a dataclass field (leaves `dirty` alone). -/
def setF (i : Issue) : Field → PyVal → Issue
  | .number, v => { i with number := v }
  | .title, v => { i with title := v }
  | .body, v => { i with body := v }
  | .assignees, v => { i with assignees := v }
  | .labels, v => { i with labels := v }

/-- An ordered mapping of field names to values: a YAML record from the
input file, the keyword arguments of a call, or a payload sent to the
remote.  Python dictionaries iterate in insertion order. -/
abbrev Rec : Type := List (String × PyVal)

/-- First-match lookup in an ordered mapping (`d[k]`; keys of an actual
Python dict are unique, so first-match agrees with dict lookup). -/
def lookupK (k : String) : Rec → Option PyVal
  | [] => Option.none
  | (k0, v) :: rest => if k0 = k then some v else lookupK k rest

/-- `Issue.update(**kwargs)`: for each recognised field whose incoming value
differs from the current one under `comp_newline`, overwrite the field and
append its name to the dirty list.  Unrecognised names are skipped. -/
def updateIssue (i : Issue) : Rec → Issue
  | [] => i
  | (k, v) :: rest =>
    match fieldOfName k with
    | Option.none => updateIssue i rest
    | some f =>
      if comp_newline (getF i f) v then updateIssue i rest
      else updateIssue { setF i f v with dirty := i.dirty ++ [k] } rest

/-- `dataclasses.asdict(self)`: the five fields in declaration order. -/
def toDict (i : Issue) : Rec :=
  [("number", i.number), ("title", i.title), ("body", i.body),
   ("assignees", i.assignees), ("labels", i.labels)]

/-- `to_dict(skip_missing=True)`: drop the fields whose value is `None`. -/
def toDictSkip (i : Issue) : Rec :=
  (toDict i).filter (fun kv => decide (kv.2 ≠ PyVal.none))

/-- `Issue._dirty_dict()`: the fields whose name is in the dirty list. -/
def dirtyDict (i : Issue) : Rec :=
  (toDict i).filter (fun kv => decide (kv.1 ∈ i.dirty))

/-- Applying the keyword arguments of `Issue(**d)` one by one; an
unrecognised keyword is a `TypeError`. -/
def setKwargs (i : Issue) : Rec → Except String Issue
  | [] => .ok i
  | (k, v) :: rest =>
    match fieldOfName k with
    | Option.none => .error ("TypeError: unexpected keyword argument " ++ k)
    | some f => setKwargs (setF i f v) rest

/-- The dataclass constructor `Issue(**d)`: all fields default to `None`,
`__post_init__` installs an empty dirty list, unexpected keywords raise. -/
def mkIssue (kwargs : Rec) : Except String Issue :=
  setKwargs {} kwargs

/-- The remote representation of an issue, as far as `Issue.from_github`
reads it: a number, a title string, an optional body, and the assignee
logins and label names. -/
structure RemoteIssue where
  number : Int
  title : List Char
  body : Option (List Char)
  assignees : List (List Char)
  labels : List (List Char)
deriving DecidableEq, Repr

/-- `Issue.from_github`: convert the remote representation into a fresh
`Issue` (dirty list empty). -/
def fromGithub (ri : RemoteIssue) : Issue :=
  { number := .int ri.number, title := .str ri.title,
    body := match ri.body with | some b => .str b | Option.none => .none,
    assignees := .list ri.assignees, labels := .list ri.labels, dirty := [] }

/-- The remote collaborator's state: the repository's issues. -/
abbrev RemoteState : Type := List RemoteIssue

/-- `repo.get_issue(m)`: the first stored issue with the given number. -/
def findIssue (m : Int) : RemoteState → Option RemoteIssue
  | [] => Option.none
  | ri :: rest => if ri.number = m then some ri else findIssue m rest

/-- Replace the first stored issue carrying the given number. -/
def replaceFirst (m : Int) (new : RemoteIssue) : RemoteState → RemoteState
  | [] => []
  | ri :: rest => if ri.number = m then new :: rest else ri :: replaceFirst m new rest

/-- The largest issue number in use (0 when the repository is empty). -/
def maxNumber (rs : RemoteState) : Int :=
  rs.foldr (fun ri acc => max ri.number acc) 0

/-- The number the remote assigns to the next created issue. -/
def freshNumber (rs : RemoteState) : Int :=
  maxNumber rs + 1

/-- Store one transmitted keyword into a remote issue, with the client
library's validation: `title` and `body` must receive strings, `assignees`
and `labels` lists of strings, and any other keyword (in particular
`number`) is a `TypeError`. -/
def editField (ri : RemoteIssue) (k : String) (v : PyVal) : Except String RemoteIssue :=
  if k = "title" then
    match v with
    | .str s => .ok { ri with title := s }
    | _ => .error "AssertionError: title must be a string"
  else if k = "body" then
    match v with
    | .str s => .ok { ri with body := some s }
    | _ => .error "AssertionError: body must be a string"
  else if k = "assignees" then
    match v with
    | .list l => .ok { ri with assignees := l }
    | _ => .error "AssertionError: assignees must be a list of strings"
  else if k = "labels" then
    match v with
    | .list l => .ok { ri with labels := l }
    | _ => .error "AssertionError: labels must be a list of strings"
  else .error ("TypeError: unexpected keyword argument " ++ k)

/-- Store a whole payload into a remote issue, keyword by keyword. -/
def applyEdit (ri : RemoteIssue) : Rec → Except String RemoteIssue
  | [] => .ok ri
  | (k, v) :: rest =>
    match editField ri k v with
    | .error e => .error e
    | .ok ri2 => applyEdit ri2 rest

/-- `gh_issue.edit(**payload)`: update the stored issue with that number. -/
def editRemote (rs : RemoteState) (m : Int) (payload : Rec) : Except String RemoteState :=
  match findIssue m rs with
  | Option.none => .error "UnknownObjectException"
  | some ri =>
    match applyEdit ri payload with
    | .error e => .error e
    | .ok ri2 => .ok (replaceFirst m ri2 rs)

/-- A freshly created issue before its payload is stored: the remote's own
defaults (no body, no assignees, no labels). -/
def blankIssue (n : Int) : RemoteIssue :=
  { number := n, title := [], body := Option.none, assignees := [], labels := [] }

/-- `repo.create_issue(**payload)`: `title` is a required argument; the
payload is validated and stored into a fresh issue, which is appended to
the repository with a fresh number. -/
def createRemote (rs : RemoteState) (payload : Rec) : Except String (Int × RemoteState) :=
  if (lookupK "title" payload).isSome then
    match applyEdit (blankIssue (freshNumber rs)) payload with
    | .error e => .error e
    | .ok ri => .ok (freshNumber rs, rs ++ [ri])
  else .error "TypeError: missing required argument title"

/-- `int(v)` as used on `issue["number"]`; only integer values are
accepted (a non-integer `number` aborts the run either way: in the source
it would make `number` dirty and `edit(number=...)` is a `TypeError`). -/
def pyInt : PyVal → Except String Int
  | .int n => .ok n
  | _ => .error "TypeError: int() argument"

/-- One remote-mutating call, as described by the run and (when not a dry
run) performed against the remote. -/
inductive Action where
  | update : Int → Rec → Action
  | create : Rec → Action
deriving DecidableEq, Repr

/-- The outcome of processing one record without raising. -/
structure StepOk where
  action : Option Action
  remote : RemoteState
  record : Rec
  added : Bool
deriving DecidableEq, Repr

/-- One iteration of the `push` loop on one record. -/
def pushStep (dryRun : Bool) (remote : RemoteState) (rec : Rec) : Except String StepOk :=
  match lookupK "number" rec with
  | some v =>
    match pyInt v with
    | .error e => .error e
    | .ok m =>
      match findIssue m remote with
      | Option.none => .error "UnknownObjectException"
      | some ri =>
        let existing := updateIssue (fromGithub ri) rec
        if existing.dirty = [] then .ok ⟨Option.none, remote, rec, false⟩
        else
          if dryRun then .ok ⟨some (.update m (dirtyDict existing)), remote, rec, false⟩
          else
            match editRemote remote m (dirtyDict existing) with
            | .error e => .error e
            | .ok remote2 => .ok ⟨some (.update m (dirtyDict existing)), remote2, rec, false⟩
  | Option.none =>
    match mkIssue rec with
    | .error e => .error e
    | .ok ni =>
      if ni.title = PyVal.none then .error "UsageError: All issues must have a title."
      else
        if dryRun then .ok ⟨some (.create (toDictSkip ni)), remote, rec, false⟩
        else
          match createRemote remote (toDictSkip ni) with
          | .error e => .error e
          | .ok (n, remote2) =>
            .ok ⟨some (.create (toDictSkip ni)), remote2, ("number", PyVal.int n) :: rec, true⟩

/-- The observable outcome of a `push` run: the described actions in
order, the final remote state, the final in-memory record list, the
`new_issues_added` flag, the first raised error (if any), and whether the
input file was rewritten. -/
structure PushResult where
  actions : List Action
  remote : RemoteState
  issues : List Rec
  newAdded : Bool
  error : Option String
  fileWritten : Bool
deriving DecidableEq, Repr

/-- The `for issue in issues` loop of `push`: process the records in file
order; an exception aborts the loop (later records untouched). -/
def pushLoop (dryRun : Bool) (remote : RemoteState) : List Rec → PushResult
  | [] => ⟨[], remote, [], false, Option.none, false⟩
  | rec :: rest =>
    match pushStep dryRun remote rec with
    | .error e => ⟨[], remote, rec :: rest, false, some e, false⟩
    | .ok s =>
      let r := pushLoop dryRun s.remote rest
      ⟨s.action.toList ++ r.actions, r.remote, s.record :: r.issues,
       s.added || r.newAdded, r.error, false⟩

/-- The `push` command on already-loaded records: run the loop, then
rewrite the input file iff the run finished, created at least one issue,
and `--update-input` is in force. -/
def push (dryRun updateInput : Bool) (issues : List Rec) (remote : RemoteState) : PushResult :=
  let r := pushLoop dryRun remote issues
  { r with fileWritten := r.error.isNone && r.newAdded && updateInput }

/-- A line separator: LF, or the CR-LF variant. -/
def sepStr (b : Bool) : List Char :=
  if b then ['\r', '\n'] else ['\n']

/-- The tail of a multi-line text: each further line preceded by its own
choice of separator. -/
def renderTail : List (Bool × List Char) → List Char
  | [] => []
  | (b, l) :: rest => sepStr b ++ l ++ renderTail rest

/-- A multi-line text assembled from a first line and further lines, each
joined by either an LF or a CR-LF separator.  Two texts differ only in
line-ending style exactly when they render the same lines with possibly
different separator choices. -/
def render (first : List Char) (rest : List (Bool × List Char)) : List Char :=
  first ++ renderTail rest

/-- The value a record's `number` key holds, when it is an integer. -/
def refNum (rec : Rec) : Option Int :=
  match lookupK "number" rec with
  | some (PyVal.int n) => some n
  | _ => Option.none

/-- The integer identifiers referenced by a list of records, in order. -/
def refNums (recs : List Rec) : List Int :=
  recs.filterMap refNum

/-- A record as an actual YAML mapping provides it: keys are unique, and
a specified field carries a value (absence, not null, encodes "not
specified"). -/
def RecOK (rec : Rec) : Prop :=
  (rec.map Prod.fst).Nodup ∧ ∀ kv ∈ rec, kv.2 ≠ PyVal.none

/-- The value a record holds for a given dataclass field (first match). -/
def recFieldVal (f : Field) : Rec → Option PyVal
  | [] => Option.none
  | (k, v) :: rest => if fieldOfName k = some f then some v else recFieldVal f rest

/-- The numbers of the stored remote issues, in storage order. -/
def numbersOf (rs : RemoteState) : List Int :=
  rs.map RemoteIssue.number

/-- A record is clean against a remote state: it refers by number to a
stored issue against which reconciliation marks nothing dirty.  Processing
a clean record is a no-op. -/
def CleanAt (R : RemoteState) (rec : Rec) : Prop :=
  ∃ m ri, lookupK "number" rec = some (PyVal.int m) ∧ findIssue m R = some ri ∧
    (updateIssue (fromGithub ri) rec).dirty = []

/-- The three ways one non-dry-run loop iteration can succeed: a no-op
update, an applied update of the dirty fields, or a creation assigned the
fresh number. -/
inductive StepShape (R : RemoteState) (rec : Rec) : StepOk → Prop where
  | clean (m : Int) (ri : RemoteIssue)
      (hlook : lookupK "number" rec = some (PyVal.int m))
      (hfind : findIssue m R = some ri)
      (hdirty : (updateIssue (fromGithub ri) rec).dirty = []) :
      StepShape R rec ⟨Option.none, R, rec, false⟩
  | dirty (m : Int) (ri ri2 : RemoteIssue)
      (hlook : lookupK "number" rec = some (PyVal.int m))
      (hfind : findIssue m R = some ri)
      (hdirty : (updateIssue (fromGithub ri) rec).dirty ≠ [])
      (hedit : applyEdit ri (dirtyDict (updateIssue (fromGithub ri) rec)) = .ok ri2) :
      StepShape R rec ⟨some (.update m (dirtyDict (updateIssue (fromGithub ri) rec))),
        replaceFirst m ri2 R, rec, false⟩
  | created (ni : Issue) (riNew : RemoteIssue)
      (hnonum : lookupK "number" rec = Option.none)
      (hmk : mkIssue rec = .ok ni)
      (htitle : ni.title ≠ PyVal.none)
      (hcr : applyEdit (blankIssue (freshNumber R)) (toDictSkip ni) = .ok riNew) :
      StepShape R rec ⟨some (.create (toDictSkip ni)), R ++ [riNew],
        ("number", PyVal.int (freshNumber R)) :: rec, true⟩

/-- A stored issue numbered 1 with title `T`, used in concrete runs. -/
def exIssue1 : RemoteIssue :=
  { number := 1, title := ['T'], body := Option.none, assignees := [], labels := [] }

/-- A one-issue remote repository used in concrete runs. -/
def exRemote : RemoteState := [exIssue1]

/-- Comparing a value with itself always succeeds. -/
theorem comp_newline_refl (v : PyVal) : comp_newline v v = true := by
  simp [comp_newline]

/-- A cons whose head is not a CR passes through the replacement. -/
theorem replaceCRLF_cons_ne (c : Char) (t : List Char) (h : c ≠ '\r') :
    replaceCRLF (c :: t) = c :: replaceCRLF t := by
  cases t with
  | nil => rfl
  | cons c2 rest => simp [replaceCRLF, h]

/-- A leading LF passes through the replacement. -/
theorem replaceCRLF_cons_lf (t : List Char) :
    replaceCRLF ('\n' :: t) = '\n' :: replaceCRLF t := by
  exact replaceCRLF_cons_ne _ _ (by decide)

/-- A leading CR-LF is rewritten to LF. -/
theorem replaceCRLF_crlf (t : List Char) :
    replaceCRLF ('\r' :: '\n' :: t) = '\n' :: replaceCRLF t := by
  simp [replaceCRLF]

/-- The replacement commutes with appending after a CR-free prefix. -/
theorem replaceCRLF_append (l t : List Char) (h : '\r' ∉ l) :
    replaceCRLF (l ++ t) = l ++ replaceCRLF t := by
  induction l with
  | nil => rfl
  | cons c l ih =>
    have hc : c ≠ '\r' := fun e => h (by simp [e])
    have hl : '\r' ∉ l := fun m => h (List.mem_cons_of_mem c m)
    simp only [List.cons_append, replaceCRLF_cons_ne c _ hc, ih hl]

/-- Normalising an assembled multi-line tail erases the separator
choices, provided no line contains a CR. -/
theorem replaceCRLF_renderTail (rest : List (Bool × List Char))
    (h : ∀ l ∈ rest.map Prod.snd, '\r' ∉ l) :
    replaceCRLF (renderTail rest) =
      renderTail (rest.map (fun p => (false, p.2))) := by
  induction rest with
  | nil => rfl
  | cons p rest ih =>
    obtain ⟨b, l⟩ := p
    have hline : '\r' ∉ l := h l (by simp)
    have htail : ∀ l' ∈ rest.map Prod.snd, '\r' ∉ l' := by
      intro l' hl'
      exact h l' (by simp only [List.map_cons, List.mem_cons]; exact Or.inr hl')
    have key : replaceCRLF (l ++ renderTail rest) =
        l ++ renderTail (rest.map (fun p => (false, p.2))) := by
      rw [replaceCRLF_append l _ hline, ih htail]
    cases b with
    | false =>
      have e1 : renderTail ((false, l) :: rest) = '\n' :: (l ++ renderTail rest) := by
        simp [renderTail, sepStr]
      have e2 : renderTail (((false, l) :: rest).map (fun p => (false, p.2))) =
          '\n' :: (l ++ renderTail (rest.map (fun p => (false, p.2)))) := by
        simp [renderTail, sepStr]
      rw [e1, e2, replaceCRLF_cons_lf, key]
    | true =>
      have e1 : renderTail ((true, l) :: rest) = '\r' :: '\n' :: (l ++ renderTail rest) := by
        simp [renderTail, sepStr]
      have e2 : renderTail (((true, l) :: rest).map (fun p => (false, p.2))) =
          '\n' :: (l ++ renderTail (rest.map (fun p => (false, p.2)))) := by
        simp [renderTail, sepStr]
      rw [e1, e2, replaceCRLF_crlf, key]

/-- Normalising an assembled multi-line text erases the separator
choices, provided no line contains a CR. -/
theorem replaceCRLF_render (first : List Char) (rest : List (Bool × List Char))
    (hf : '\r' ∉ first) (h : ∀ l ∈ rest.map Prod.snd, '\r' ∉ l) :
    replaceCRLF (render first rest) =
      render first (rest.map (fun p => (false, p.2))) := by
  unfold render
  rw [replaceCRLF_append first _ hf, replaceCRLF_renderTail rest h]

/-- A string is recognised as a field exactly when it is that field's name. -/
theorem fieldOfName_eq_some (k : String) (f : Field) :
    fieldOfName k = some f ↔ k = fieldName f := by
  unfold fieldOfName
  split_ifs with h1 h2 h3 h4 h5 <;> cases f <;> simp_all [fieldName]

/-- Field names are recognised. -/
theorem fieldOfName_fieldName (f : Field) : fieldOfName (fieldName f) = some f :=
  (fieldOfName_eq_some _ f).mpr rfl

/-- Distinct fields have distinct names. -/
theorem fieldName_inj (f f' : Field) (h : fieldName f = fieldName f') : f = f' := by
  cases f <;> cases f' <;> first | rfl | exact absurd h (by decide)

/-- Reading back the field just set. -/
theorem getF_setF_same (i : Issue) (f : Field) (v : PyVal) :
    getF (setF i f v) f = v := by
  cases f <;> rfl

/-- Setting one field leaves the others unchanged. -/
theorem getF_setF_ne (i : Issue) (f f' : Field) (v : PyVal) (h : f ≠ f') :
    getF (setF i f v) f' = getF i f' := by
  cases f <;> cases f' <;> first | rfl | exact absurd rfl h

/-- Setting a field does not touch the dirty list. -/
theorem setF_dirty (i : Issue) (f : Field) (v : PyVal) :
    (setF i f v).dirty = i.dirty := by
  cases f <;> rfl

/-- Replacing the dirty list does not change the field values. -/
theorem getF_withDirty (i : Issue) (d : List String) (f : Field) :
    getF { i with dirty := d } f = getF i f := by
  cases f <;> rfl

/-- Lookup fails exactly on absent keys. -/
theorem lookupK_eq_none (k : String) (rec : Rec) :
    lookupK k rec = Option.none ↔ k ∉ rec.map Prod.fst := by
  induction rec with
  | nil => simp [lookupK]
  | cons kv rest ih =>
    obtain ⟨k0, v0⟩ := kv
    by_cases h : k0 = k
    · subst h; simp [lookupK]
    · simp [lookupK, h, ih, Ne.symm h]

/-- A field with no key in the record has no record value. -/
theorem recFieldVal_of_not_mem (f : Field) (rec : Rec)
    (h : fieldName f ∉ rec.map Prod.fst) : recFieldVal f rec = Option.none := by
  induction rec with
  | nil => rfl
  | cons kv rest ih =>
    obtain ⟨k0, v0⟩ := kv
    have hk0 : ¬(fieldOfName k0 = some f) := by
      rw [fieldOfName_eq_some]
      intro e; exact h (by simp [← e])
    have htail : fieldName f ∉ rest.map Prod.fst := fun m => h (by simp [m])
    simp [recFieldVal, hk0, ih htail]

/-- For a recognised key, the record value of its field is its lookup. -/
theorem recFieldVal_eq_lookupK (f : Field) (k : String) (rec : Rec)
    (hk : fieldOfName k = some f) : recFieldVal f rec = lookupK k rec := by
  have hkname : k = fieldName f := (fieldOfName_eq_some _ _).mp hk
  subst hkname
  induction rec with
  | nil => rfl
  | cons kv rest ih =>
    obtain ⟨k0, v0⟩ := kv
    by_cases h : k0 = fieldName f
    · subst h
      simp [recFieldVal, lookupK, fieldOfName_fieldName]
    · have h2 : ¬(fieldOfName k0 = some f) := by
        rw [fieldOfName_eq_some]; exact h
      simp [recFieldVal, lookupK, h, h2, ih]

/-- What each field holds after `Issue.update`: the incoming value when
the record specifies one that differs under normalised comparison, the
old value otherwise. -/
theorem updateIssue_getF (rec : Rec) (i : Issue)
    (hnd : (rec.map Prod.fst).Nodup) (f : Field) :
    getF (updateIssue i rec) f =
      match recFieldVal f rec with
      | some v => if comp_newline (getF i f) v then getF i f else v
      | Option.none => getF i f := by
  induction rec generalizing i with
  | nil => rfl
  | cons kv rest ih =>
    obtain ⟨k, v⟩ := kv
    rw [List.map_cons] at hnd
    obtain ⟨hknotin, hndrest⟩ := List.nodup_cons.mp hnd
    cases hk : fieldOfName k with
    | none =>
      have hhead : ¬(fieldOfName k = some f) := by simp [hk]
      have hstep : updateIssue i ((k, v) :: rest) = updateIssue i rest := by
        simp [updateIssue, hk]
      have hrv : recFieldVal f ((k, v) :: rest) = recFieldVal f rest := by
        simp [recFieldVal, hhead]
      rw [hstep, hrv]
      exact ih i hndrest
    | some f0 =>
      have hkname : k = fieldName f0 := (fieldOfName_eq_some _ _).mp hk
      by_cases hf : f = f0
      · subst hf
        have hnone : recFieldVal f rest = Option.none :=
          recFieldVal_of_not_mem f rest (hkname ▸ hknotin)
        have hrv : recFieldVal f ((k, v) :: rest) = some v := by
          simp [recFieldVal, hk]
        by_cases hc : comp_newline (getF i f) v = true
        · have hstep : updateIssue i ((k, v) :: rest) = updateIssue i rest := by
            simp [updateIssue, hk, hc]
          rw [hstep, hrv, ih i hndrest, hnone]
          simp [hc]
        · have hstep : updateIssue i ((k, v) :: rest) =
              updateIssue { setF i f v with dirty := i.dirty ++ [k] } rest := by
            simp [updateIssue, hk, hc]
          rw [hstep, hrv, ih _ hndrest, hnone]
          rw [getF_withDirty, getF_setF_same]
          simp [hc]
      · have hhead : ¬(fieldOfName k = some f) := by
          rw [hk]; intro e; injection e with e'; exact hf e'.symm
        have hrv : recFieldVal f ((k, v) :: rest) = recFieldVal f rest := by
          simp [recFieldVal, hhead]
        by_cases hc : comp_newline (getF i f0) v = true
        · have hstep : updateIssue i ((k, v) :: rest) = updateIssue i rest := by
            simp [updateIssue, hk, hc]
          rw [hstep, hrv]
          exact ih i hndrest
        · have hstep : updateIssue i ((k, v) :: rest) =
              updateIssue { setF i f0 v with dirty := i.dirty ++ [k] } rest := by
            simp [updateIssue, hk, hc]
          have hgf : getF { setF i f0 v with dirty := i.dirty ++ [k] } f = getF i f := by
            rw [getF_withDirty, getF_setF_ne i f0 f v (fun e => hf e.symm)]
          rw [hstep, hrv, ih _ hndrest]
          simp only [hgf]

/-- Which names are dirty after `Issue.update`: exactly the previously
dirty names together with the recognised keys of the record whose value
differs from the tracker's under normalised comparison. -/
theorem updateIssue_dirty_mem (rec : Rec) (i : Issue)
    (hnd : (rec.map Prod.fst).Nodup) (k : String) :
    k ∈ (updateIssue i rec).dirty ↔
      k ∈ i.dirty ∨ ∃ v f, lookupK k rec = some v ∧ fieldOfName k = some f ∧
        comp_newline (getF i f) v = false := by
  induction rec generalizing i with
  | nil => simp [updateIssue, lookupK]
  | cons kv rest ih =>
    obtain ⟨k0, v0⟩ := kv
    rw [List.map_cons] at hnd
    obtain ⟨hknotin, hndrest⟩ := List.nodup_cons.mp hnd
    cases hk0 : fieldOfName k0 with
    | none =>
      simp only [updateIssue, hk0]
      rw [ih i hndrest]
      by_cases hkk : k0 = k
      · subst hkk
        have hrest : lookupK k0 rest = Option.none :=
          (lookupK_eq_none _ _).mpr hknotin
        simp [lookupK, hrest, hk0]
      · simp [lookupK, hkk]
    | some f0 =>
      have hk0name : k0 = fieldName f0 := (fieldOfName_eq_some _ _).mp hk0
      by_cases hc : comp_newline (getF i f0) v0 = true
      · simp only [updateIssue, hk0, if_pos hc]
        rw [ih i hndrest]
        by_cases hkk : k0 = k
        · subst hkk
          have hrest : lookupK k0 rest = Option.none :=
            (lookupK_eq_none _ _).mpr hknotin
          simp [lookupK, hrest, hk0, hc]
        · simp [lookupK, hkk]
      · simp only [updateIssue, hk0, if_neg hc]
        rw [ih _ hndrest]
        by_cases hkk : k0 = k
        · subst hkk
          constructor
          · intro _
            exact Or.inr ⟨v0, f0, by simp [lookupK], hk0, by simpa using hc⟩
          · intro _
            exact Or.inl (by simp [setF_dirty])
        · have hlook : lookupK k ((k0, v0) :: rest) = lookupK k rest := by
            simp [lookupK, hkk]
          rw [hlook]
          have hdirty : k ∈ ({ setF i f0 v0 with dirty := i.dirty ++ [k0] } : Issue).dirty
              ↔ k ∈ i.dirty := by
            simp [Ne.symm hkk]
          rw [hdirty]
          constructor
          · rintro (h | ⟨v, f, hv, hf, hcf⟩)
            · exact Or.inl h
            · refine Or.inr ⟨v, f, hv, hf, ?_⟩
              have hf0 : f ≠ f0 := by
                intro e; subst e
                exact hkk (((fieldOfName_eq_some _ _).mp hf) ▸ hk0name ▸ rfl)
              rwa [getF_withDirty, getF_setF_ne i f0 f v0 (fun e => hf0 e.symm)] at hcf
          · rintro (h | ⟨v, f, hv, hf, hcf⟩)
            · exact Or.inl h
            · refine Or.inr ⟨v, f, hv, hf, ?_⟩
              have hf0 : f ≠ f0 := by
                intro e; subst e
                exact hkk (((fieldOfName_eq_some _ _).mp hf) ▸ hk0name ▸ rfl)
              rwa [getF_withDirty, getF_setF_ne i f0 f v0 (fun e => hf0 e.symm)]

/-- Starting from a fresh tracker, only recognised names become dirty. -/
theorem updateIssue_dirty_recognized (rec : Rec) (i : Issue)
    (hnd : (rec.map Prod.fst).Nodup) (hd : i.dirty = []) (k : String)
    (hk : k ∈ (updateIssue i rec).dirty) : ∃ f, fieldOfName k = some f := by
  rcases (updateIssue_dirty_mem rec i hnd k).mp hk with h | ⟨v, f, _, hf, _⟩
  · rw [hd] at h; cases h
  · exact ⟨f, hf⟩

/-- One `update` call appends a given name to the dirty list at most
once: the keyword keys of a call are distinct. -/
theorem updateIssue_dirty_count (rec : Rec) (i : Issue)
    (hnd : (rec.map Prod.fst).Nodup) (k : String) :
    (updateIssue i rec).dirty.count k ≤
      i.dirty.count k + (if k ∈ rec.map Prod.fst then 1 else 0) := by
  induction rec generalizing i with
  | nil => simp [updateIssue]
  | cons kv rest ih =>
    obtain ⟨k0, v0⟩ := kv
    rw [List.map_cons] at hnd
    obtain ⟨hknotin, hndrest⟩ := List.nodup_cons.mp hnd
    have hmono : (if k ∈ rest.map Prod.fst then 1 else 0) ≤
        (if k ∈ (k0 :: rest.map Prod.fst) then 1 else 0) := by
      by_cases h : k ∈ rest.map Prod.fst
      · simp [h, List.mem_cons_of_mem]
      · simp [h]
    have hskip : ∀ j : Issue, j.dirty = i.dirty →
        (updateIssue j rest).dirty.count k ≤
          i.dirty.count k + (if k ∈ (k0 :: rest.map Prod.fst) then 1 else 0) := by
      intro j hj
      calc (updateIssue j rest).dirty.count k
          ≤ j.dirty.count k + (if k ∈ rest.map Prod.fst then 1 else 0) := ih j hndrest
        _ ≤ i.dirty.count k + (if k ∈ (k0 :: rest.map Prod.fst) then 1 else 0) := by
            rw [hj]; exact Nat.add_le_add_left hmono _
    cases hk0 : fieldOfName k0 with
    | none =>
      have hstep : updateIssue i ((k0, v0) :: rest) = updateIssue i rest := by
        simp [updateIssue, hk0]
      rw [hstep, List.map_cons]
      exact hskip i rfl
    | some f0 =>
      by_cases hc : comp_newline (getF i f0) v0 = true
      · have hstep : updateIssue i ((k0, v0) :: rest) = updateIssue i rest := by
          simp [updateIssue, hk0, hc]
        rw [hstep, List.map_cons]
        exact hskip i rfl
      · have hstep : updateIssue i ((k0, v0) :: rest) =
            updateIssue { setF i f0 v0 with dirty := i.dirty ++ [k0] } rest := by
          simp [updateIssue, hk0, hc]
        rw [hstep, List.map_cons]
        by_cases hkk : k0 = k
        · subst hkk
          have hnotin : (if k0 ∈ rest.map Prod.fst then 1 else 0) = 0 := by
            simp [hknotin]
          calc (updateIssue { setF i f0 v0 with dirty := i.dirty ++ [k0] } rest).dirty.count k0
              ≤ (i.dirty ++ [k0]).count k0 + (if k0 ∈ rest.map Prod.fst then 1 else 0) :=
                ih { setF i f0 v0 with dirty := i.dirty ++ [k0] } hndrest
            _ = i.dirty.count k0 + 1 := by
                rw [hnotin, List.count_append]; simp
            _ ≤ i.dirty.count k0 + (if k0 ∈ (k0 :: rest.map Prod.fst) then 1 else 0) := by
                simp
        · have hcnt : (i.dirty ++ [k0]).count k = i.dirty.count k := by
            rw [List.count_append]
            simp [List.count_singleton', hkk]
          calc (updateIssue { setF i f0 v0 with dirty := i.dirty ++ [k0] } rest).dirty.count k
              ≤ (i.dirty ++ [k0]).count k + (if k ∈ rest.map Prod.fst then 1 else 0) :=
                ih { setF i f0 v0 with dirty := i.dirty ++ [k0] } hndrest
            _ = i.dirty.count k + (if k ∈ rest.map Prod.fst then 1 else 0) := by rw [hcnt]
            _ ≤ i.dirty.count k + (if k ∈ (k0 :: rest.map Prod.fst) then 1 else 0) :=
                Nat.add_le_add_left hmono _

/-- Looking a key up in a filtered record. -/
theorem lookupK_filter (p : String × PyVal → Bool) (rec : Rec) (k : String)
    (hnd : (rec.map Prod.fst).Nodup) :
    lookupK k (rec.filter p) =
      match lookupK k rec with
      | some v => if p (k, v) then some v else Option.none
      | Option.none => Option.none := by
  induction rec with
  | nil => rfl
  | cons kv rest ih =>
    obtain ⟨k0, v0⟩ := kv
    rw [List.map_cons] at hnd
    obtain ⟨hknotin, hndrest⟩ := List.nodup_cons.mp hnd
    by_cases hp : p (k0, v0) = true
    · rw [List.filter_cons_of_pos hp]
      by_cases hkk : k0 = k
      · subst hkk
        simp [lookupK, hp]
      · simp only [lookupK, if_neg hkk]
        exact ih hndrest
    · rw [List.filter_cons_of_neg (by simpa using hp)]
      by_cases hkk : k0 = k
      · subst hkk
        have h1 : lookupK k0 (rest.filter p) = Option.none := by
          rw [lookupK_eq_none]
          intro hmem
          rcases List.mem_map.mp hmem with ⟨kv, hkv, hfst⟩
          exact hknotin (List.mem_map.mpr ⟨kv, List.mem_of_mem_filter hkv, hfst⟩)
        rw [h1]
        simp [lookupK, hp]
      · simp only [lookupK, if_neg hkk]
        exact ih hndrest

/-- The names in `to_dict` are the five field names in order. -/
theorem toDict_keys (i : Issue) :
    (toDict i).map Prod.fst = ["number", "title", "body", "assignees", "labels"] := rfl

/-- Looking a field up in `to_dict` yields its value. -/
theorem toDict_lookup (i : Issue) (f : Field) :
    lookupK (fieldName f) (toDict i) = some (getF i f) := by
  cases f <;> rfl

/-- Looking a field up in `_dirty_dict`: present exactly when dirty. -/
theorem dirtyDict_lookup (i : Issue) (f : Field) :
    lookupK (fieldName f) (dirtyDict i) =
      if fieldName f ∈ i.dirty then some (getF i f) else Option.none := by
  unfold dirtyDict
  rw [lookupK_filter _ _ _ (by rw [toDict_keys]; decide), toDict_lookup]
  by_cases h : fieldName f ∈ i.dirty <;> simp [h]

/-- Looking a field up in `to_dict(skip_missing=True)`: present exactly
when the field is specified. -/
theorem toDictSkip_lookup (i : Issue) (f : Field) :
    lookupK (fieldName f) (toDictSkip i) =
      if getF i f = PyVal.none then Option.none else some (getF i f) := by
  unfold toDictSkip
  rw [lookupK_filter _ _ _ (by rw [toDict_keys]; decide), toDict_lookup]
  by_cases h : getF i f = PyVal.none <;> simp [h]

/-- Filtering keeps record keys distinct. -/
theorem filter_keys_nodup (p : String × PyVal → Bool) (rec : Rec)
    (hnd : (rec.map Prod.fst).Nodup) : ((rec.filter p).map Prod.fst).Nodup :=
  List.Nodup.sublist (List.Sublist.map Prod.fst (List.filter_sublist rec)) hnd

/-- An unrecognised key in a record is absent from any filtered `to_dict`. -/
theorem lookupK_toDict_unrecognized (i : Issue) (p : String × PyVal → Bool) (k : String)
    (h : fieldOfName k = Option.none) :
    lookupK k ((toDict i).filter p) = Option.none := by
  rw [lookupK_filter _ _ _ (by rw [toDict_keys]; decide)]
  have hnone : lookupK k (toDict i) = Option.none := by
    rw [lookupK_eq_none, toDict_keys]
    intro hmem
    have hk5 : k = "number" ∨ k = "title" ∨ k = "body" ∨ k = "assignees" ∨ k = "labels" := by
      simpa using hmem
    rcases hk5 with h1 | h1 | h1 | h1 | h1 <;> rw [h1] at h <;> simp [fieldOfName] at h
  rw [hnone]

/-- What each field holds after the keyword constructor succeeds. -/
theorem setKwargs_getF (rec : Rec) (i ni : Issue)
    (hnd : (rec.map Prod.fst).Nodup) (h : setKwargs i rec = .ok ni) (f : Field) :
    getF ni f =
      match recFieldVal f rec with
      | some v => v
      | Option.none => getF i f := by
  induction rec generalizing i with
  | nil =>
    simp only [setKwargs, Except.ok.injEq] at h
    subst h; rfl
  | cons kv rest ih =>
    obtain ⟨k, v⟩ := kv
    rw [List.map_cons] at hnd
    obtain ⟨hknotin, hndrest⟩ := List.nodup_cons.mp hnd
    cases hk : fieldOfName k with
    | none => simp [setKwargs, hk] at h
    | some f0 =>
      have hkname : k = fieldName f0 := (fieldOfName_eq_some _ _).mp hk
      have hstep : setKwargs (setF i f0 v) rest = .ok ni := by
        simpa [setKwargs, hk] using h
      by_cases hf : f = f0
      · subst hf
        have hnone : recFieldVal f rest = Option.none :=
          recFieldVal_of_not_mem f rest (hkname ▸ hknotin)
        have hrv : recFieldVal f ((k, v) :: rest) = some v := by
          simp [recFieldVal, hk]
        rw [hrv, ih _ hndrest hstep, hnone, getF_setF_same]
      · have hhead : ¬(fieldOfName k = some f) := by
          rw [hk]; intro e; injection e with e'; exact hf e'.symm
        have hrv : recFieldVal f ((k, v) :: rest) = recFieldVal f rest := by
          simp [recFieldVal, hhead]
        rw [hrv, ih _ hndrest hstep]
        simp only [getF_setF_ne i f0 f v (fun e => hf e.symm)]

/-- The keyword constructor never marks anything dirty. -/
theorem setKwargs_dirty (rec : Rec) (i ni : Issue) (h : setKwargs i rec = .ok ni) :
    ni.dirty = i.dirty := by
  induction rec generalizing i with
  | nil =>
    simp only [setKwargs, Except.ok.injEq] at h
    subst h; rfl
  | cons kv rest ih =>
    obtain ⟨k, v⟩ := kv
    cases hk : fieldOfName k with
    | none => simp [setKwargs, hk] at h
    | some f0 =>
      have hstep : setKwargs (setF i f0 v) rest = .ok ni := by
        simpa [setKwargs, hk] using h
      rw [ih _ hstep, setF_dirty]

/-- An unrecognised keyword makes the dataclass constructor raise. -/
theorem setKwargs_error_of_unrecognized (rec : Rec) (i : Issue)
    (h : ∃ kv ∈ rec, fieldOfName kv.1 = Option.none) :
    ∃ e, setKwargs i rec = .error e := by
  induction rec generalizing i with
  | nil => simp at h
  | cons kv rest ih =>
    obtain ⟨k, v⟩ := kv
    cases hk : fieldOfName k with
    | none =>
      exact ⟨"TypeError: unexpected keyword argument " ++ k, by simp [setKwargs, hk]⟩
    | some f0 =>
      rcases h with ⟨kv', hkv', hbad⟩
      rcases List.mem_cons.mp hkv' with he | hmem
      · have hkn : fieldOfName k = Option.none := by simpa [he] using hbad
        rw [hkn] at hk
        simp at hk
      · rcases ih (setF i f0 v) ⟨kv', hmem, hbad⟩ with ⟨e, he⟩
        exact ⟨e, by simp [setKwargs, hk, he]⟩

/-- A successfully stored keyword: it names a non-`number` field, the
stored issue reads back exactly the transmitted value there, and nothing
else (in particular not the number) changes. -/
theorem editField_ok (ri ri2 : RemoteIssue) (k : String) (v : PyVal)
    (h : editField ri k v = .ok ri2) :
    ∃ f, fieldOfName k = some f ∧ f ≠ Field.number ∧
      getF (fromGithub ri2) f = v ∧ ri2.number = ri.number ∧
      ∀ f', f' ≠ f → getF (fromGithub ri2) f' = getF (fromGithub ri) f' := by
  unfold editField at h
  split_ifs at h with h1 h2 h3 h4
  · cases v with
    | str s =>
      simp only [Except.ok.injEq] at h
      subst h; subst h1
      refine ⟨.title, rfl, by decide, rfl, rfl, ?_⟩
      intro f' hf'; cases f' <;> first | rfl | exact absurd rfl hf'
    | none => simp at h
    | int n => simp at h
    | list l => simp at h
  · cases v with
    | str s =>
      simp only [Except.ok.injEq] at h
      subst h; subst h2
      refine ⟨.body, rfl, by decide, rfl, rfl, ?_⟩
      intro f' hf'; cases f' <;> first | rfl | exact absurd rfl hf'
    | none => simp at h
    | int n => simp at h
    | list l => simp at h
  · cases v with
    | list l =>
      simp only [Except.ok.injEq] at h
      subst h; subst h3
      refine ⟨.assignees, rfl, by decide, rfl, rfl, ?_⟩
      intro f' hf'; cases f' <;> first | rfl | exact absurd rfl hf'
    | none => simp at h
    | int n => simp at h
    | str s => simp at h
  · cases v with
    | list l =>
      simp only [Except.ok.injEq] at h
      subst h; subst h4
      refine ⟨.labels, rfl, by decide, rfl, rfl, ?_⟩
      intro f' hf'; cases f' <;> first | rfl | exact absurd rfl hf'
    | none => simp at h
    | int n => simp at h
    | str s => simp at h

/-- Storing a payload never changes the issue number. -/
theorem applyEdit_number (payload : Rec) (ri ri2 : RemoteIssue)
    (h : applyEdit ri payload = .ok ri2) : ri2.number = ri.number := by
  induction payload generalizing ri with
  | nil =>
    simp only [applyEdit, Except.ok.injEq] at h
    rw [h]
  | cons kv rest ih =>
    obtain ⟨k, v⟩ := kv
    cases hef : editField ri k v with
    | error e => simp [applyEdit, hef] at h
    | ok ri1 =>
      have hrest : applyEdit ri1 rest = .ok ri2 := by simpa [applyEdit, hef] using h
      rcases editField_ok ri ri1 k v hef with ⟨f, _, _, _, hnum, _⟩
      rw [ih ri1 hrest, hnum]

/-- What the remote holds after a payload is stored: the transmitted
value for each transmitted field, the previous value elsewhere. -/
theorem applyEdit_getF (payload : Rec) (ri ri2 : RemoteIssue)
    (hnd : (payload.map Prod.fst).Nodup) (h : applyEdit ri payload = .ok ri2) (f : Field) :
    getF (fromGithub ri2) f =
      match recFieldVal f payload with
      | some v => v
      | Option.none => getF (fromGithub ri) f := by
  induction payload generalizing ri with
  | nil =>
    simp only [applyEdit, Except.ok.injEq] at h
    rw [h]; rfl
  | cons kv rest ih =>
    obtain ⟨k, v⟩ := kv
    rw [List.map_cons] at hnd
    obtain ⟨hknotin, hndrest⟩ := List.nodup_cons.mp hnd
    cases hef : editField ri k v with
    | error e => simp [applyEdit, hef] at h
    | ok ri1 =>
      have hrest : applyEdit ri1 rest = .ok ri2 := by simpa [applyEdit, hef] using h
      rcases editField_ok ri ri1 k v hef with ⟨f0, hk, _, hget, _, hframe⟩
      have hkname : k = fieldName f0 := (fieldOfName_eq_some _ _).mp hk
      by_cases hf : f = f0
      · subst hf
        have hnone : recFieldVal f rest = Option.none :=
          recFieldVal_of_not_mem f rest (hkname ▸ hknotin)
        have hrv : recFieldVal f ((k, v) :: rest) = some v := by
          simp [recFieldVal, hk]
        rw [hrv, ih ri1 hndrest hrest, hnone, hget]
      · have hhead : ¬(fieldOfName k = some f) := by
          rw [hk]; intro e; injection e with e'; exact hf e'.symm
        have hrv : recFieldVal f ((k, v) :: rest) = recFieldVal f rest := by
          simp [recFieldVal, hhead]
        rw [hrv, ih ri1 hndrest hrest]
        simp only [hframe f hf]

/-- A found issue carries the looked-up number and is stored. -/
theorem findIssue_eq_some (m : Int) (rs : RemoteState) (ri : RemoteIssue)
    (h : findIssue m rs = some ri) : ri.number = m ∧ ri ∈ rs := by
  induction rs with
  | nil => simp [findIssue] at h
  | cons ri0 rest ih =>
    by_cases h0 : ri0.number = m
    · have : ri0 = ri := by simpa [findIssue, h0] using h
      subst this
      exact ⟨h0, by simp⟩
    · have h' : findIssue m rest = some ri := by simpa [findIssue, h0] using h
      exact ⟨(ih h').1, List.mem_cons_of_mem _ (ih h').2⟩

/-- Replacing the issue found under a number makes lookups of that
number return the replacement, provided the replacement keeps the number. -/
theorem findIssue_replaceFirst_self (m : Int) (rs : RemoteState) (new : RemoteIssue)
    (hsome : (findIssue m rs).isSome) (hn : new.number = m) :
    findIssue m (replaceFirst m new rs) = some new := by
  induction rs with
  | nil => simp [findIssue] at hsome
  | cons ri0 rest ih =>
    by_cases h0 : ri0.number = m
    · simp [replaceFirst, findIssue, h0, hn]
    · have hsome' : (findIssue m rest).isSome := by simpa [findIssue, h0] using hsome
      simp [replaceFirst, findIssue, h0, ih hsome']

/-- Replacing an issue stored under one number does not affect lookups
of a different number, provided the replacement keeps the number. -/
theorem findIssue_replaceFirst_ne (m m' : Int) (rs : RemoteState) (new : RemoteIssue)
    (hne : m' ≠ m) (hn : new.number = m) :
    findIssue m' (replaceFirst m new rs) = findIssue m' rs := by
  induction rs with
  | nil => rfl
  | cons ri0 rest ih =>
    by_cases h0 : ri0.number = m
    · have hmm : ¬(m = m') := fun e => hne e.symm
      simp [replaceFirst, findIssue, h0, hn, hmm]
    · simp [replaceFirst, findIssue, h0, ih]

/-- Replacing under a number the replacement keeps preserves the stored
numbers. -/
theorem numbersOf_replaceFirst (m : Int) (rs : RemoteState) (new : RemoteIssue)
    (hn : new.number = m) :
    numbersOf (replaceFirst m new rs) = numbersOf rs := by
  induction rs with
  | nil => rfl
  | cons ri0 rest ih =>
    by_cases h0 : ri0.number = m
    · simp [replaceFirst, numbersOf, h0, hn]
    · simp only [replaceFirst, if_neg h0, numbersOf, List.map_cons]
      rw [show (replaceFirst m new rest).map RemoteIssue.number = numbersOf (replaceFirst m new rest) from rfl, ih]
      rfl

/-- A successful lookup is preserved by appending more issues. -/
theorem findIssue_append_of_some (m : Int) (rs l : RemoteState) (ri : RemoteIssue)
    (h : findIssue m rs = some ri) : findIssue m (rs ++ l) = some ri := by
  induction rs with
  | nil => simp [findIssue] at h
  | cons ri0 rest ih =>
    by_cases h0 : ri0.number = m
    · have : ri0 = ri := by simpa [findIssue, h0] using h
      subst this
      simp [findIssue, h0]
    · have h' : findIssue m rest = some ri := by simpa [findIssue, h0] using h
      simp [findIssue, h0, ih h']

/-- Every stored number is bounded by the maximum. -/
theorem number_le_maxNumber (rs : RemoteState) (ri : RemoteIssue) (h : ri ∈ rs) :
    ri.number ≤ maxNumber rs := by
  induction rs with
  | nil => cases h
  | cons ri0 rest ih =>
    rcases List.mem_cons.mp h with he | hm
    · subst he
      exact le_max_left _ _
    · exact le_trans (ih hm) (le_max_right _ _)

/-- The fresh number is strictly larger than every stored number. -/
theorem fresh_not_stored (rs : RemoteState) (ri : RemoteIssue) (h : ri ∈ rs) :
    ri.number ≠ freshNumber rs := by
  have := number_le_maxNumber rs ri h
  unfold freshNumber
  omega

/-- Appending an issue with an unused number makes it findable. -/
theorem findIssue_append_new (rs : RemoteState) (x : RemoteIssue)
    (hx : ∀ ri ∈ rs, ri.number ≠ x.number) :
    findIssue x.number (rs ++ [x]) = some x := by
  induction rs with
  | nil => simp [findIssue]
  | cons ri0 rest ih =>
    have h0 : ¬(ri0.number = x.number) := hx ri0 (by simp)
    have htail : ∀ ri ∈ rest, ri.number ≠ x.number := fun ri hm => hx ri (by simp [hm])
    simp [findIssue, h0, ih htail]

/-- Stored numbers of an extended repository. -/
theorem numbersOf_append (rs l : RemoteState) :
    numbersOf (rs ++ l) = numbersOf rs ++ numbersOf l := by
  simp [numbersOf]

/-- Membership in the stored numbers is existence of a stored issue. -/
theorem mem_numbersOf (m : Int) (rs : RemoteState) :
    m ∈ numbersOf rs ↔ ∃ ri ∈ rs, ri.number = m := by
  simp [numbersOf, List.mem_map]

/-- A stored number can be looked up. -/
theorem findIssue_isSome_of_mem (m : Int) (rs : RemoteState)
    (h : m ∈ numbersOf rs) : (findIssue m rs).isSome := by
  induction rs with
  | nil => simp [numbersOf] at h
  | cons ri0 rest ih =>
    by_cases h0 : ri0.number = m
    · simp [findIssue, h0]
    · have h' : m ∈ numbersOf rest := by
        rcases (mem_numbersOf m _).mp h with ⟨ri, hm, he⟩
        rcases List.mem_cons.mp hm with he0 | hm'
        · subst he0; exact absurd he h0
        · exact (mem_numbersOf m rest).mpr ⟨ri, hm', he⟩
      simp [findIssue, h0, ih h']

/-- What a successful creation returns: the fresh number, and the
repository extended by the stored payload. -/
theorem createRemote_ok (rs : RemoteState) (payload : Rec) (n : Int) (rs2 : RemoteState)
    (h : createRemote rs payload = .ok (n, rs2)) :
    n = freshNumber rs ∧ ∃ riNew, applyEdit (blankIssue (freshNumber rs)) payload = .ok riNew ∧
      rs2 = rs ++ [riNew] := by
  unfold createRemote at h
  split_ifs at h with h1
  · cases hae : applyEdit (blankIssue (freshNumber rs)) payload with
    | error e => rw [hae] at h; cases h
    | ok ri =>
      rw [hae] at h
      simp only [Except.ok.injEq, Prod.mk.injEq] at h
      exact ⟨h.1.symm, ri, rfl, h.2.symm⟩

/-- Looking up a key yields one of the record's entries. -/
theorem lookupK_mem (k : String) (rec : Rec) (v : PyVal)
    (h : lookupK k rec = some v) : (k, v) ∈ rec := by
  induction rec with
  | nil => cases h
  | cons kv rest ih =>
    obtain ⟨k0, v0⟩ := kv
    by_cases h0 : k0 = k
    · subst h0
      have : v0 = v := by simpa [lookupK] using h
      subst this
      exact List.mem_cons_self _ _
    · exact List.mem_cons_of_mem _ (ih (by simpa [lookupK, h0] using h))

/-- An integer `number` key determines the referenced identifier. -/
theorem refNum_of_lookup (rec : Rec) (m : Int)
    (h : lookupK "number" rec = some (PyVal.int m)) : refNum rec = some m := by
  simp [refNum, h]

/-- With no `number` key there is no referenced identifier. -/
theorem refNum_of_lookup_none (rec : Rec)
    (h : lookupK "number" rec = Option.none) : refNum rec = Option.none := by
  simp [refNum, h]

/-- Inverting a successful remote update call. -/
theorem editRemote_ok (rs : RemoteState) (m : Int) (payload : Rec) (R2 : RemoteState)
    (h : editRemote rs m payload = .ok R2) :
    ∃ ri ri2, findIssue m rs = some ri ∧ applyEdit ri payload = .ok ri2 ∧
      R2 = replaceFirst m ri2 rs := by
  unfold editRemote at h
  cases hfind : findIssue m rs with
  | none => simp only [hfind] at h; cases h
  | some ri =>
    simp only [hfind] at h
    cases happly : applyEdit ri payload with
    | error e => simp only [happly] at h; cases h
    | ok ri2 =>
      simp only [happly, Except.ok.injEq] at h
      exact ⟨ri, ri2, rfl, happly, h.symm⟩

/-- Inverting a successful non-dry-run loop iteration. -/
theorem pushStep_ok_shape (R : RemoteState) (rec : Rec) (s : StepOk)
    (h : pushStep false R rec = .ok s) : StepShape R rec s := by
  unfold pushStep at h
  cases hlook : lookupK "number" rec with
  | some v =>
    simp only [hlook] at h
    cases v with
    | int m =>
      simp only [pyInt] at h
      cases hfind : findIssue m R with
      | none => simp only [hfind] at h; cases h
      | some ri =>
        simp only [hfind] at h
        by_cases hdirty : (updateIssue (fromGithub ri) rec).dirty = []
        · simp only [if_pos hdirty, Except.ok.injEq] at h
          subst h
          exact StepShape.clean m ri hlook hfind hdirty
        · simp only [if_neg hdirty, if_neg (by simp : ¬(false = true))] at h
          cases hedit : editRemote R m (dirtyDict (updateIssue (fromGithub ri) rec)) with
          | error e => simp only [hedit] at h; cases h
          | ok R2 =>
            simp only [hedit, Except.ok.injEq] at h
            subst h
            rcases editRemote_ok R m _ R2 hedit with ⟨ri', ri2, hfind', happly, hR2⟩
            rw [hfind] at hfind'
            have hrieq : ri' = ri := (Option.some.inj hfind').symm
            subst hrieq
            subst hR2
            exact StepShape.dirty m ri' ri2 hlook hfind hdirty happly
    | none => simp [pyInt] at h
    | str c => simp [pyInt] at h
    | list l => simp [pyInt] at h
  | none =>
    simp only [hlook] at h
    cases hmk : mkIssue rec with
    | error e => simp only [hmk] at h; cases h
    | ok ni =>
      simp only [hmk] at h
      by_cases htitle : ni.title = PyVal.none
      · simp only [if_pos htitle] at h; cases h
      · simp only [if_neg htitle, if_neg (by simp : ¬(false = true))] at h
        cases hcr : createRemote R (toDictSkip ni) with
        | error e => simp only [hcr] at h; cases h
        | ok p =>
          obtain ⟨n, R2⟩ := p
          simp only [hcr, Except.ok.injEq] at h
          subst h
          rcases createRemote_ok R _ n R2 hcr with ⟨hn, riNew, happly, hR2⟩
          subst hn
          subst hR2
          exact StepShape.created ni riNew hlook hmk htitle happly

/-- After a dirty update is stored, reconciling the same record against
the stored issue marks nothing dirty. -/
theorem edit_makes_clean (rec : Rec) (ri ri2 : RemoteIssue)
    (hnd : (rec.map Prod.fst).Nodup)
    (hedit : applyEdit ri (dirtyDict (updateIssue (fromGithub ri) rec)) = .ok ri2) :
    (updateIssue (fromGithub ri2) rec).dirty = [] := by
  have hpnd : ((dirtyDict (updateIssue (fromGithub ri) rec)).map Prod.fst).Nodup :=
    filter_keys_nodup _ _ (by rw [toDict_keys]; decide)
  rw [List.eq_nil_iff_forall_not_mem]
  intro k hk
  rcases (updateIssue_dirty_mem rec (fromGithub ri2) hnd k).mp hk with hmem | ⟨v, f, hv, hf, hcf⟩
  · simp [fromGithub] at hmem
  · have hkname : k = fieldName f := (fieldOfName_eq_some _ _).mp hf
    have hrvrec : recFieldVal f rec = some v := by
      rw [recFieldVal_eq_lookupK f k rec hf]; exact hv
    have hget2 : getF (fromGithub ri2) f =
        match recFieldVal f (dirtyDict (updateIssue (fromGithub ri) rec)) with
        | some w => w
        | Option.none => getF (fromGithub ri) f :=
      applyEdit_getF _ ri ri2 hpnd hedit f
    have hrvpay : recFieldVal f (dirtyDict (updateIssue (fromGithub ri) rec)) =
        lookupK (fieldName f) (dirtyDict (updateIssue (fromGithub ri) rec)) :=
      recFieldVal_eq_lookupK f (fieldName f) _ (fieldOfName_fieldName f)
    rw [hrvpay, dirtyDict_lookup] at hget2
    by_cases hdirtyf : fieldName f ∈ (updateIssue (fromGithub ri) rec).dirty
    · rw [if_pos hdirtyf] at hget2
      have hget2' : getF (fromGithub ri2) f = getF (updateIssue (fromGithub ri) rec) f := hget2
      have hcomp_false : comp_newline (getF (fromGithub ri) f) v = false := by
        rcases (updateIssue_dirty_mem rec (fromGithub ri) hnd (fieldName f)).mp hdirtyf with
          hmem | ⟨v', f', hv', hf', hcf'⟩
        · simp [fromGithub] at hmem
        · have hff : f' = f :=
            (fieldName_inj f' f ((fieldOfName_eq_some (fieldName f) f').mp hf').symm)
          subst hff
          have hvv : v' = v := by
            rw [hkname] at hv
            rw [hv] at hv'
            exact (Option.some.inj hv').symm
          subst hvv
          exact hcf'
      have hval : getF (updateIssue (fromGithub ri) rec) f = v := by
        rw [updateIssue_getF rec (fromGithub ri) hnd f, hrvrec]
        simp [hcomp_false]
      rw [hget2', hval, comp_newline_refl] at hcf
      cases hcf
    · rw [if_neg hdirtyf] at hget2
      have hget2' : getF (fromGithub ri2) f = getF (fromGithub ri) f := hget2
      have hcomp_true : comp_newline (getF (fromGithub ri) f) v = true := by
        by_contra hcc
        exact hdirtyf ((updateIssue_dirty_mem rec (fromGithub ri) hnd (fieldName f)).mpr
          (Or.inr ⟨v, f, hkname ▸ hv, fieldOfName_fieldName f, by simpa using hcc⟩))
      rw [hget2', hcomp_true] at hcf
      cases hcf

/-- After a creation is stored, reconciling the number-annotated record
against the stored issue marks nothing dirty. -/
theorem create_makes_clean (rec : Rec) (R : RemoteState) (ni : Issue) (riNew : RemoteIssue)
    (hnd : (rec.map Prod.fst).Nodup)
    (hnonum : lookupK "number" rec = Option.none)
    (hnonull : ∀ kv ∈ rec, kv.2 ≠ PyVal.none)
    (hmk : mkIssue rec = .ok ni)
    (hcr : applyEdit (blankIssue (freshNumber R)) (toDictSkip ni) = .ok riNew) :
    CleanAt (R ++ [riNew]) (("number", PyVal.int (freshNumber R)) :: rec) := by
  have hriNum : riNew.number = freshNumber R := by
    rw [applyEdit_number _ _ _ hcr]; rfl
  have hfind : findIssue (freshNumber R) (R ++ [riNew]) = some riNew := by
    have := findIssue_append_new R riNew (fun ri hm => by
      rw [hriNum]; exact fresh_not_stored R ri hm)
    rwa [hriNum] at this
  have hpnd : ((toDictSkip ni).map Prod.fst).Nodup :=
    filter_keys_nodup _ _ (by rw [toDict_keys]; decide)
  have hnumnotin : "number" ∉ rec.map Prod.fst := (lookupK_eq_none _ _).mp hnonum
  have hnd' : ((("number", PyVal.int (freshNumber R)) :: rec).map Prod.fst).Nodup := by
    rw [List.map_cons, List.nodup_cons]
    exact ⟨hnumnotin, hnd⟩
  refine ⟨freshNumber R, riNew, by simp [lookupK], hfind, ?_⟩
  rw [List.eq_nil_iff_forall_not_mem]
  intro k hk
  rcases (updateIssue_dirty_mem _ (fromGithub riNew) hnd' k).mp hk with hmem | ⟨v, f, hv, hf, hcf⟩
  · simp [fromGithub] at hmem
  · have hkname : k = fieldName f := (fieldOfName_eq_some _ _).mp hf
    by_cases hknum : k = "number"
    · subst hknum
      have hfnum : f = Field.number := (fieldName_inj Field.number f hkname).symm
      subst hfnum
      have hvnum : v = PyVal.int (freshNumber R) := by
        have hv2 := hv
        simp [lookupK] at hv2
        exact hv2.symm
      subst hvnum
      have : getF (fromGithub riNew) Field.number = PyVal.int (freshNumber R) := by
        simp [fromGithub, getF, hriNum]
      rw [this, comp_newline_refl] at hcf
      cases hcf
    · have hvrec : lookupK k rec = some v := by
        simpa [lookupK, Ne.symm hknum] using hv
      have hvnn : v ≠ PyVal.none := hnonull (k, v) (lookupK_mem k rec v hvrec)
      have hgni : getF ni f = v := by
        rw [setKwargs_getF rec {} ni hnd hmk f,
          recFieldVal_eq_lookupK f k rec hf, hvrec]
      have hrvpay : recFieldVal f (toDictSkip ni) = some v := by
        rw [recFieldVal_eq_lookupK f (fieldName f) _ (fieldOfName_fieldName f),
          toDictSkip_lookup, hgni, if_neg hvnn]
      have hget : getF (fromGithub riNew) f = v := by
        rw [applyEdit_getF _ _ _ hpnd hcr f, hrvpay]
      rw [hget, comp_newline_refl] at hcf
      cases hcf

/-- A clean record's loop iteration is a no-op: no action, no remote
change, no record change. -/
theorem cleanAt_step (d : Bool) (R : RemoteState) (rec : Rec) (h : CleanAt R rec) :
    pushStep d R rec = .ok ⟨Option.none, R, rec, false⟩ := by
  rcases h with ⟨m, ri, hlook, hfind, hdirty⟩
  unfold pushStep
  rw [hlook]
  simp only [pyInt]
  rw [hfind]
  simp only []
  rw [if_pos hdirty]

/-- Unfolding one successful loop iteration. -/
theorem pushLoop_cons_ok (d : Bool) (R : RemoteState) (rec : Rec) (rest : List Rec)
    (s : StepOk) (h : pushStep d R rec = .ok s) :
    pushLoop d R (rec :: rest) =
      ⟨s.action.toList ++ (pushLoop d s.remote rest).actions,
       (pushLoop d s.remote rest).remote,
       s.record :: (pushLoop d s.remote rest).issues,
       s.added || (pushLoop d s.remote rest).newAdded,
       (pushLoop d s.remote rest).error, false⟩ := by
  simp [pushLoop, h]

/-- Unfolding one raising loop iteration. -/
theorem pushLoop_cons_error (d : Bool) (R : RemoteState) (rec : Rec) (rest : List Rec)
    (e : String) (h : pushStep d R rec = .error e) :
    pushLoop d R (rec :: rest) = ⟨[], R, rec :: rest, false, some e, false⟩ := by
  simp [pushLoop, h]

/-- Referenced identifiers of a list headed by an update record. -/
theorem refNums_cons_some (rec : Rec) (rest : List Rec) (m : Int)
    (h : refNum rec = some m) : refNums (rec :: rest) = m :: refNums rest := by
  simp [refNums, h]

/-- Referenced identifiers of a list headed by a creation record. -/
theorem refNums_cons_none (rec : Rec) (rest : List Rec)
    (h : refNum rec = Option.none) : refNums (rec :: rest) = refNums rest := by
  simp [refNums, h]

/-- A record's referenced identifier is among the list's. -/
theorem refNum_mem_refNums (rec : Rec) (recs : List Rec) (m : Int)
    (hmem : rec ∈ recs) (h : refNum rec = some m) : m ∈ refNums recs :=
  List.mem_filterMap.mpr ⟨rec, hmem, h⟩

/-- A remote issue found under a number stays found through the rest of a
run that never references that number. -/
theorem loop_preserves_find (m : Int) (ri : RemoteIssue) :
    ∀ (rest : List Rec) (R : RemoteState),
      findIssue m R = some ri →
      (∀ rec ∈ rest, ∀ m', refNum rec = some m' → m' ≠ m) →
      findIssue m (pushLoop false R rest).remote = some ri := by
  intro rest
  induction rest with
  | nil =>
    intro R hfind _
    simpa [pushLoop] using hfind
  | cons rec rest' ih =>
    intro R hfind hne
    cases hstep : pushStep false R rec with
    | error e =>
      rw [pushLoop_cons_error false R rec rest' e hstep]
      exact hfind
    | ok s =>
      rw [pushLoop_cons_ok false R rec rest' s hstep]
      have hne' : ∀ rec2 ∈ rest', ∀ m', refNum rec2 = some m' → m' ≠ m :=
        fun rec2 h2 => hne rec2 (List.mem_cons_of_mem _ h2)
      apply ih _ _ hne'
      cases pushStep_ok_shape R rec s hstep with
      | clean m0 ri0 hlook hfind0 hdirty => exact hfind
      | dirty m0 ri0 ri2 hlook hfind0 hdirty hedit =>
        have hm0 : m0 ≠ m := hne rec (List.mem_cons_self _ _) m0 (refNum_of_lookup rec m0 hlook)
        have hn : ri2.number = m0 := by
          rw [applyEdit_number _ _ _ hedit, (findIssue_eq_some m0 R ri0 hfind0).1]
        rw [findIssue_replaceFirst_ne m0 m R ri2 (fun e => hm0 e.symm) hn]
        exact hfind
      | created ni riNew hnonum hmk htitle hcr =>
        exact findIssue_append_of_some m R [riNew] ri hfind

/-- After a successful non-dry-run loop over well-formed records whose
referenced identifiers are distinct and pre-existing, every resulting
record is clean against the resulting remote state. -/
theorem loop_all_clean (base : List Int) :
    ∀ (rest : List Rec) (R : RemoteState),
      (∀ rec ∈ rest, (rec.map Prod.fst).Nodup ∧ ∀ kv ∈ rec, kv.2 ≠ PyVal.none) →
      (∀ rec ∈ rest, ∀ m, refNum rec = some m → m ∈ base) →
      (refNums rest).Nodup →
      (∃ ext, numbersOf R = base ++ ext) →
      (pushLoop false R rest).error = Option.none →
      ∀ rec' ∈ (pushLoop false R rest).issues, CleanAt (pushLoop false R rest).remote rec' := by
  intro rest
  induction rest with
  | nil =>
    intro R _ _ _ _ _ rec' hmem
    simp [pushLoop] at hmem
  | cons rec rest' ih =>
    intro R hok hrefs hndref hext herr
    cases hstep : pushStep false R rec with
    | error e =>
      rw [pushLoop_cons_error false R rec rest' e hstep] at herr
      simp at herr
    | ok s =>
      rw [pushLoop_cons_ok false R rec rest' s hstep] at herr ⊢
      have herr' : (pushLoop false s.remote rest').error = Option.none := herr
      obtain ⟨hndrec, hnonull⟩ := hok rec (List.mem_cons_self _ _)
      have hok' : ∀ rec2 ∈ rest', (rec2.map Prod.fst).Nodup ∧ ∀ kv ∈ rec2, kv.2 ≠ PyVal.none :=
        fun rec2 h2 => hok rec2 (List.mem_cons_of_mem _ h2)
      have hrefs' : ∀ rec2 ∈ rest', ∀ m, refNum rec2 = some m → m ∈ base :=
        fun rec2 h2 => hrefs rec2 (List.mem_cons_of_mem _ h2)
      intro rec' hmem
      have hmem' : rec' ∈ s.record :: (pushLoop false s.remote rest').issues := hmem
      cases pushStep_ok_shape R rec s hstep with
      | clean m ri hlook hfind hdirty =>
        have hrn : refNum rec = some m := refNum_of_lookup rec m hlook
        have hndref' : (refNums rest').Nodup := by
          rw [refNums_cons_some rec rest' m hrn] at hndref
          exact (List.nodup_cons.mp hndref).2
        have hnotin : m ∉ refNums rest' := by
          rw [refNums_cons_some rec rest' m hrn] at hndref
          exact (List.nodup_cons.mp hndref).1
        have hm_ne : ∀ rec2 ∈ rest', ∀ m', refNum rec2 = some m' → m' ≠ m :=
          fun rec2 h2 m' h' he =>
            hnotin (he ▸ refNum_mem_refNums rec2 rest' m' h2 h')
        rcases List.mem_cons.mp hmem' with he | hm
        · subst he
          exact ⟨m, ri, hlook, loop_preserves_find m ri rest' R hfind hm_ne, hdirty⟩
        · exact ih R hok' hrefs' hndref' hext herr' rec' hm
      | dirty m ri ri2 hlook hfind hdirty hedit =>
        have hrn : refNum rec = some m := refNum_of_lookup rec m hlook
        have hndref' : (refNums rest').Nodup := by
          rw [refNums_cons_some rec rest' m hrn] at hndref
          exact (List.nodup_cons.mp hndref).2
        have hnotin : m ∉ refNums rest' := by
          rw [refNums_cons_some rec rest' m hrn] at hndref
          exact (List.nodup_cons.mp hndref).1
        have hm_ne : ∀ rec2 ∈ rest', ∀ m', refNum rec2 = some m' → m' ≠ m :=
          fun rec2 h2 m' h' he =>
            hnotin (he ▸ refNum_mem_refNums rec2 rest' m' h2 h')
        have hn2 : ri2.number = m := by
          rw [applyEdit_number _ _ _ hedit, (findIssue_eq_some m R ri hfind).1]
        have hfind2 : findIssue m (replaceFirst m ri2 R) = some ri2 :=
          findIssue_replaceFirst_self m R ri2 (by rw [hfind]; rfl) hn2
        have hext2 : ∃ ext, numbersOf (replaceFirst m ri2 R) = base ++ ext := by
          rw [numbersOf_replaceFirst m R ri2 hn2]
          exact hext
        rcases List.mem_cons.mp hmem' with he | hm
        · rw [he]
          exact ⟨m, ri2, hlook,
            loop_preserves_find m ri2 rest' (replaceFirst m ri2 R) hfind2 hm_ne,
            edit_makes_clean rec ri ri2 hndrec hedit⟩
        · exact ih (replaceFirst m ri2 R) hok' hrefs' hndref' hext2 herr' rec' hm
      | created ni riNew hnonum hmk htitle hcr =>
        have hrn : refNum rec = Option.none := refNum_of_lookup_none rec hnonum
        have hndref' : (refNums rest').Nodup := by
          rwa [refNums_cons_none rec rest' hrn] at hndref
        have hm_ne : ∀ rec2 ∈ rest', ∀ m', refNum rec2 = some m' → m' ≠ freshNumber R := by
          intro rec2 h2 m' h' he
          have hbase : m' ∈ base := hrefs' rec2 h2 m' h'
          rcases hext with ⟨ext, hnums⟩
          have hmem2 : m' ∈ numbersOf R := by
            rw [hnums]; exact List.mem_append_left ext hbase
          rcases (mem_numbersOf m' R).mp hmem2 with ⟨ri', hri'mem, hri'num⟩
          exact fresh_not_stored R ri' hri'mem (hri'num.trans he)
        have hclean0 : CleanAt (R ++ [riNew]) (("number", PyVal.int (freshNumber R)) :: rec) :=
          create_makes_clean rec R ni riNew hndrec hnonum hnonull hmk hcr
        have hext2 : ∃ ext, numbersOf (R ++ [riNew]) = base ++ ext := by
          rcases hext with ⟨ext, hnums⟩
          exact ⟨ext ++ [riNew.number], by
            rw [numbersOf_append, hnums, List.append_assoc]; rfl⟩
        rcases List.mem_cons.mp hmem' with he | hm
        · subst he
          rcases hclean0 with ⟨m0, ri0, hlook0, hfind0, hdirty0⟩
          have hm0 : m0 = freshNumber R := by
            have : some (PyVal.int (freshNumber R)) = some (PyVal.int m0) := by
              rw [← hlook0]; simp [lookupK]
            simpa using this.symm
          subst hm0
          exact ⟨freshNumber R, ri0, hlook0,
            loop_preserves_find (freshNumber R) ri0 rest' (R ++ [riNew]) hfind0 hm_ne, hdirty0⟩
        · exact ih (R ++ [riNew]) hok' hrefs' hndref' hext2 herr' rec' hm

/-- A push loop over records that are all clean against the remote is a
complete no-op. -/
theorem loop_of_all_clean (d : Bool) :
    ∀ (recs : List Rec) (R : RemoteState),
      (∀ rec ∈ recs, CleanAt R rec) →
      pushLoop d R recs = ⟨[], R, recs, false, Option.none, false⟩ := by
  intro recs
  induction recs with
  | nil => intro R _; rfl
  | cons rec rest ih =>
    intro R h
    rw [pushLoop_cons_ok d R rec rest _ (cleanAt_step d R rec (h rec (List.mem_cons_self _ _)))]
    rw [ih R (fun rec2 h2 => h rec2 (List.mem_cons_of_mem _ h2))]
    rfl

/-- The loop itself never rewrites the input file. -/
theorem pushLoop_fileWritten (d : Bool) (R : RemoteState) (recs : List Rec) :
    (pushLoop d R recs).fileWritten = false := by
  cases recs with
  | nil => rfl
  | cons rec rest =>
    cases hstep : pushStep d R rec with
    | error e => rw [pushLoop_cons_error d R rec rest e hstep]
    | ok s => rw [pushLoop_cons_ok d R rec rest s hstep]

/-- Splitting a loop at a successful prefix. -/
theorem pushLoop_append (d : Bool) :
    ∀ (pre : List Rec) (R : RemoteState) (rest : List Rec),
      (pushLoop d R pre).error = Option.none →
      pushLoop d R (pre ++ rest) =
        ⟨(pushLoop d R pre).actions ++ (pushLoop d (pushLoop d R pre).remote rest).actions,
         (pushLoop d (pushLoop d R pre).remote rest).remote,
         (pushLoop d R pre).issues ++ (pushLoop d (pushLoop d R pre).remote rest).issues,
         (pushLoop d R pre).newAdded || (pushLoop d (pushLoop d R pre).remote rest).newAdded,
         (pushLoop d (pushLoop d R pre).remote rest).error, false⟩ := by
  intro pre
  induction pre with
  | nil =>
    intro R rest _
    have heq : pushLoop d R ([] ++ rest) = pushLoop d R rest := rfl
    rw [heq, ← pushLoop_fileWritten d R rest]
    rfl
  | cons rec pre' ih =>
    intro R rest herr
    cases hstep : pushStep d R rec with
    | error e =>
      rw [pushLoop_cons_error d R rec pre' e hstep] at herr
      simp at herr
    | ok s =>
      rw [pushLoop_cons_ok d R rec pre' s hstep] at herr
      have herr' : (pushLoop d s.remote pre').error = Option.none := herr
      rw [List.cons_append, pushLoop_cons_ok d R rec (pre' ++ rest) s hstep,
          ih s.remote rest herr', pushLoop_cons_ok d R rec pre' s hstep]
      simp [List.append_assoc, Bool.or_assoc]

/-- A successful dry-run iteration describes an action but changes
nothing: the remote, the record and the added flag are untouched. -/
theorem pushStep_dry_ok (R : RemoteState) (rec : Rec) (s : StepOk)
    (h : pushStep true R rec = .ok s) :
    s.remote = R ∧ s.record = rec ∧ s.added = false := by
  unfold pushStep at h
  cases hlook : lookupK "number" rec with
  | some v =>
    simp only [hlook] at h
    cases v with
    | int m =>
      simp only [pyInt] at h
      cases hfind : findIssue m R with
      | none => simp only [hfind] at h; cases h
      | some ri =>
        simp only [hfind] at h
        by_cases hdirty : (updateIssue (fromGithub ri) rec).dirty = []
        · simp only [if_pos hdirty, Except.ok.injEq] at h
          subst h; exact ⟨rfl, rfl, rfl⟩
        · simp only [if_neg hdirty, if_true, Except.ok.injEq] at h
          subst h; exact ⟨rfl, rfl, rfl⟩
    | none => simp [pyInt] at h
    | str c => simp [pyInt] at h
    | list l => simp [pyInt] at h
  | none =>
    simp only [hlook] at h
    cases hmk : mkIssue rec with
    | error e => simp only [hmk] at h; cases h
    | ok ni =>
      simp only [hmk] at h
      by_cases htitle : ni.title = PyVal.none
      · simp only [if_pos htitle] at h; cases h
      · simp only [if_neg htitle, if_true, Except.ok.injEq] at h
        subst h; exact ⟨rfl, rfl, rfl⟩

/-- A dry run, compared with a successful real run from a remote state
that agrees on every referenced identifier: same described actions, and
the dry run leaves everything untouched. -/
theorem loop_parallel (R0 : RemoteState) :
    ∀ (rest : List Rec) (R : RemoteState),
      (∀ rec ∈ rest, ∀ m, refNum rec = some m →
        findIssue m R = findIssue m R0 ∧ (findIssue m R0).isSome) →
      (refNums rest).Nodup →
      (pushLoop false R rest).error = Option.none →
      (pushLoop true R0 rest).actions = (pushLoop false R rest).actions ∧
      (pushLoop true R0 rest).remote = R0 ∧
      (pushLoop true R0 rest).issues = rest ∧
      (pushLoop true R0 rest).newAdded = false ∧
      (pushLoop true R0 rest).error = Option.none := by
  intro rest
  induction rest with
  | nil =>
    intro R _ _ _
    exact ⟨rfl, rfl, rfl, rfl, rfl⟩
  | cons rec rest' ih =>
    intro R hagree hndref herr
    cases hstep : pushStep false R rec with
    | error e =>
      rw [pushLoop_cons_error false R rec rest' e hstep] at herr
      simp at herr
    | ok s =>
      rw [pushLoop_cons_ok false R rec rest' s hstep] at herr
      have herr' : (pushLoop false s.remote rest').error = Option.none := herr
      have hagree' : ∀ rec2 ∈ rest', ∀ m, refNum rec2 = some m →
          findIssue m R = findIssue m R0 ∧ (findIssue m R0).isSome :=
        fun rec2 h2 => hagree rec2 (List.mem_cons_of_mem _ h2)
      cases pushStep_ok_shape R rec s hstep with
      | clean m ri hlook hfind hdirty =>
        have hrn : refNum rec = some m := refNum_of_lookup rec m hlook
        have hag := hagree rec (List.mem_cons_self _ _) m hrn
        have hfind0 : findIssue m R0 = some ri := by rw [← hag.1]; exact hfind
        have hdry : pushStep true R0 rec = .ok ⟨Option.none, R0, rec, false⟩ :=
          cleanAt_step true R0 rec ⟨m, ri, hlook, hfind0, hdirty⟩
        have hndref' : (refNums rest').Nodup := by
          rw [refNums_cons_some rec rest' m hrn] at hndref
          exact (List.nodup_cons.mp hndref).2
        obtain ⟨ha, hr, hi, hn, he⟩ := ih R hagree' hndref' herr'
        rw [pushLoop_cons_ok true R0 rec rest' _ hdry,
            pushLoop_cons_ok false R rec rest' _ hstep]
        exact ⟨by simpa using ha, hr, by rw [hi], by simpa using hn, he⟩
      | dirty m ri ri2 hlook hfind hdirty hedit =>
        have hrn : refNum rec = some m := refNum_of_lookup rec m hlook
        have hag := hagree rec (List.mem_cons_self _ _) m hrn
        have hfind0 : findIssue m R0 = some ri := by rw [← hag.1]; exact hfind
        have hdry : pushStep true R0 rec = .ok
            ⟨some (.update m (dirtyDict (updateIssue (fromGithub ri) rec))), R0, rec, false⟩ := by
          unfold pushStep
          simp [hlook, pyInt, hfind0, hdirty]
        have hn2 : ri2.number = m := by
          rw [applyEdit_number _ _ _ hedit, (findIssue_eq_some m R ri hfind).1]
        have hndref' : (refNums rest').Nodup := by
          rw [refNums_cons_some rec rest' m hrn] at hndref
          exact (List.nodup_cons.mp hndref).2
        have hnotin : m ∉ refNums rest' := by
          rw [refNums_cons_some rec rest' m hrn] at hndref
          exact (List.nodup_cons.mp hndref).1
        have hagree2 : ∀ rec2 ∈ rest', ∀ m', refNum rec2 = some m' →
            findIssue m' (replaceFirst m ri2 R) = findIssue m' R0 ∧
              (findIssue m' R0).isSome := by
          intro rec2 h2 m' h'
          have hne : m' ≠ m := fun he =>
            hnotin (he ▸ refNum_mem_refNums rec2 rest' m' h2 h')
          rw [findIssue_replaceFirst_ne m m' R ri2 hne hn2]
          exact hagree' rec2 h2 m' h'
        obtain ⟨ha, hr, hi, hn, he⟩ := ih (replaceFirst m ri2 R) hagree2 hndref' herr'
        rw [pushLoop_cons_ok true R0 rec rest' _ hdry,
            pushLoop_cons_ok false R rec rest' _ hstep]
        exact ⟨by simpa using ha, hr, by rw [hi], by simpa using hn, he⟩
      | created ni riNew hnonum hmk htitle hcr =>
        have hrn : refNum rec = Option.none := refNum_of_lookup_none rec hnonum
        have hdry : pushStep true R0 rec = .ok
            ⟨some (.create (toDictSkip ni)), R0, rec, false⟩ := by
          unfold pushStep
          simp [hnonum, hmk, htitle]
        have hndref' : (refNums rest').Nodup := by
          rwa [refNums_cons_none rec rest' hrn] at hndref
        have hagree2 : ∀ rec2 ∈ rest', ∀ m', refNum rec2 = some m' →
            findIssue m' (R ++ [riNew]) = findIssue m' R0 ∧
              (findIssue m' R0).isSome := by
          intro rec2 h2 m' h'
          obtain ⟨hagr, hsome⟩ := hagree' rec2 h2 m' h'
          rcases Option.isSome_iff_exists.mp hsome with ⟨ri', hri'0⟩
          have hriR : findIssue m' R = some ri' := by rw [hagr, hri'0]
          constructor
          · rw [findIssue_append_of_some m' R [riNew] ri' hriR, hri'0]
          · exact hsome
        obtain ⟨ha, hr, hi, hn, he⟩ := ih (R ++ [riNew]) hagree2 hndref' herr'
        rw [pushLoop_cons_ok true R0 rec rest' _ hdry,
            pushLoop_cons_ok false R rec rest' _ hstep]
        exact ⟨by simpa using ha, hr, by rw [hi], by simpa using hn, he⟩

/-- A push over records that are all clean is a complete no-op. -/
theorem push_of_all_clean (d u : Bool) (recs : List Rec) (R : RemoteState)
    (h : ∀ rec ∈ recs, CleanAt R rec) :
    push d u recs R = ⟨[], R, recs, false, Option.none, false⟩ := by
  unfold push
  rw [loop_of_all_clean d recs R h]
  rfl

/-- C3: seeding a tracker with a record `r` (nothing dirty) and calling
`update` with a candidate field mapping `f` (distinct keys, as in any
Python dict) marks dirty exactly the recognised field names whose value
in `f` differs from `r`'s under normalised comparison; in particular,
updating with values all equal to `r`'s yields an empty dirty set. -/
theorem dirty_set_exact (r : Issue) (f : Rec)
    (hd : r.dirty = []) (hnd : (f.map Prod.fst).Nodup) :
    (∀ k, k ∈ (updateIssue r f).dirty ↔
        ∃ v fl, lookupK k f = some v ∧ fieldOfName k = some fl ∧
          comp_newline (getF r fl) v = false) ∧
    ((∀ k v fl, lookupK k f = some v → fieldOfName k = some fl →
        comp_newline (getF r fl) v = true) → (updateIssue r f).dirty = []) := by
  constructor
  · intro k
    rw [updateIssue_dirty_mem f r hnd k, hd]
    simp
  · intro hall
    rw [List.eq_nil_iff_forall_not_mem]
    intro k hk
    rcases (updateIssue_dirty_mem f r hnd k).mp hk with h | ⟨v, fl, hv, hf, hc⟩
    · rw [hd] at h
      cases h
    · rw [hall k v fl hv hf] at hc
      cases hc

/-- Witness for C3 at a concrete tracker and field mapping. -/
theorem dirty_set_exact_witness :
    (∀ k, k ∈ (updateIssue { title := PyVal.str ['A'] } [("title", PyVal.str ['B'])]).dirty ↔
        ∃ v fl, lookupK k [("title", PyVal.str ['B'])] = some v ∧ fieldOfName k = some fl ∧
          comp_newline (getF { title := PyVal.str ['A'] } fl) v = false) ∧
    ((∀ k v fl, lookupK k [("title", PyVal.str ['B'])] = some v → fieldOfName k = some fl →
        comp_newline (getF { title := PyVal.str ['A'] } fl) v = true) →
      (updateIssue { title := PyVal.str ['A'] } [("title", PyVal.str ['B'])]).dirty = []) :=
  dirty_set_exact { title := PyVal.str ['A'] } [("title", PyVal.str ['B'])] rfl (by decide)

/-- C4 counterexample: two `update` calls that each change `title` append
the name twice — the dirty collection is a list, not a set, so a field
can be marked dirty more than once per tracker instance. -/
theorem dirty_remark_cex :
    (updateIssue (updateIssue { title := PyVal.str ['A'] } [("title", PyVal.str ['B'])])
        [("title", PyVal.str ['C'])]).dirty = ["title", "title"] := by
  decide

/-- C4 (amended): within a single `update` call a field name is appended
to the dirty list at most once (the keyword keys of one call are
distinct); a later call that changes the field again re-appends the name,
so across calls the list may contain duplicates. -/
theorem dirty_once_per_update_call (r : Issue) (f : Rec)
    (hnd : (f.map Prod.fst).Nodup) (k : String) :
    (updateIssue r f).dirty.count k ≤ r.dirty.count k + 1 := by
  have h := updateIssue_dirty_count f r hnd k
  by_cases hmem : k ∈ f.map Prod.fst
  · rw [if_pos hmem] at h
    exact h
  · rw [if_neg hmem] at h
    omega

/-- Witness for the amended C4 at a concrete tracker and call. -/
theorem dirty_once_per_update_call_witness :
    (updateIssue { title := PyVal.str ['A'] }
        [("title", PyVal.str ['B']), ("labels", PyVal.list [])]).dirty.count "title" ≤
      ({ title := PyVal.str ['A'] } : Issue).dirty.count "title" + 1 :=
  dirty_once_per_update_call { title := PyVal.str ['A'] }
    [("title", PyVal.str ['B']), ("labels", PyVal.list [])] (by decide) "title"

/-- C5: `comp_newline` equates any two strings that assemble the same
CR-free lines with different line-ending styles (LF versus CR-LF), and on
non-string values it is plain equality; it is a pure function of its
arguments. -/
theorem comp_newline_spec :
    (∀ (first : List Char) (r1 r2 : List (Bool × List Char)),
        '\r' ∉ first → (∀ l ∈ r1.map Prod.snd, '\r' ∉ l) →
        r1.map Prod.snd = r2.map Prod.snd →
        comp_newline (.str (render first r1)) (.str (render first r2)) = true) ∧
    (∀ a b : PyVal, (∀ s, a ≠ .str s) → (∀ s, b ≠ .str s) →
        (comp_newline a b = true ↔ a = b)) := by
  constructor
  · intro first r1 r2 hf h1 heq
    have h2 : ∀ l ∈ r2.map Prod.snd, '\r' ∉ l := heq ▸ h1
    have hmm : ∀ (r : List (Bool × List Char)), r.map (fun p => (false, p.2)) =
        (r.map Prod.snd).map (fun l => ((false : Bool), l)) := by
      intro r
      rw [List.map_map]
      rfl
    have hren : replaceCRLF (render first r1) = replaceCRLF (render first r2) := by
      rw [replaceCRLF_render first r1 hf h1, replaceCRLF_render first r2 hf h2,
        hmm r1, hmm r2, heq]
    simp [comp_newline, normPy, hren]
  · intro a b ha hb
    have hna : normPy a = a := by
      cases a <;> first | rfl | exact absurd rfl (ha _)
    have hnb : normPy b = b := by
      cases b <;> first | rfl | exact absurd rfl (hb _)
    unfold comp_newline
    rw [hna, hnb]
    exact decide_eq_true_iff

/-- Witness for C5: a CR-LF string equals its LF twin, and integers
compare by plain equality. -/
theorem comp_newline_spec_witness :
    comp_newline (.str (render ['a'] [(true, ['b'])])) (.str (render ['a'] [(false, ['b'])])) = true ∧
    (comp_newline (PyVal.int 3) (PyVal.int 3) = true ↔ (PyVal.int 3 : PyVal) = PyVal.int 3) :=
  ⟨comp_newline_spec.1 ['a'] [(true, ['b'])] [(false, ['b'])] (by decide) (by decide) rfl,
   comp_newline_spec.2 (PyVal.int 3) (PyVal.int 3)
     (fun s h => PyVal.noConfusion h) (fun s h => PyVal.noConfusion h)⟩

/-- C6: an update-path record whose reconciliation marks nothing dirty is
skipped: no action is described, no remote call is made, nothing changes. -/
theorem clean_update_noop (d : Bool) (R : RemoteState) (rec : Rec) (m : Int) (ri : RemoteIssue)
    (hlook : lookupK "number" rec = some (PyVal.int m))
    (hfind : findIssue m R = some ri)
    (hdirty : (updateIssue (fromGithub ri) rec).dirty = []) :
    pushStep d R rec = .ok ⟨Option.none, R, rec, false⟩ :=
  cleanAt_step d R rec ⟨m, ri, hlook, hfind, hdirty⟩

/-- Witness for C6 at a concrete clean update. -/
theorem clean_update_noop_witness :
    pushStep false exRemote [("number", PyVal.int 1), ("title", PyVal.str ['T'])] =
      .ok ⟨Option.none, exRemote, [("number", PyVal.int 1), ("title", PyVal.str ['T'])], false⟩ :=
  clean_update_noop false exRemote [("number", PyVal.int 1), ("title", PyVal.str ['T'])] 1
    exIssue1 rfl rfl rfl

/-- C7: an update-path record with a non-empty dirty set results in an
update action whose payload is `_dirty_dict`, and the payload's keys are
exactly the dirty field names — an unchanged field is never resent. -/
theorem dirty_update_payload (R : RemoteState) (rec : Rec) (m : Int) (ri : RemoteIssue)
    (R2 : RemoteState)
    (hnd : (rec.map Prod.fst).Nodup)
    (hlook : lookupK "number" rec = some (PyVal.int m))
    (hfind : findIssue m R = some ri)
    (hdirty : (updateIssue (fromGithub ri) rec).dirty ≠ [])
    (hedit : editRemote R m (dirtyDict (updateIssue (fromGithub ri) rec)) = .ok R2) :
    pushStep false R rec =
      .ok ⟨some (.update m (dirtyDict (updateIssue (fromGithub ri) rec))), R2, rec, false⟩ ∧
    ∀ k, k ∈ (dirtyDict (updateIssue (fromGithub ri) rec)).map Prod.fst ↔
      k ∈ (updateIssue (fromGithub ri) rec).dirty := by
  constructor
  · unfold pushStep
    simp [hlook, pyInt, hfind, hdirty, hedit]
  · intro k
    have hmemiff : k ∈ (dirtyDict (updateIssue (fromGithub ri) rec)).map Prod.fst ↔
        lookupK k (dirtyDict (updateIssue (fromGithub ri) rec)) ≠ Option.none := by
      rw [Ne, lookupK_eq_none]
      exact not_not.symm
    rw [hmemiff]
    cases hk : fieldOfName k with
    | some f =>
      have hkname : k = fieldName f := (fieldOfName_eq_some _ _).mp hk
      subst hkname
      rw [dirtyDict_lookup]
      by_cases hin : fieldName f ∈ (updateIssue (fromGithub ri) rec).dirty
      · simp [hin]
      · simp [hin]
    | none =>
      have hnonein : lookupK k (dirtyDict (updateIssue (fromGithub ri) rec)) = Option.none := by
        show lookupK k ((toDict _).filter _) = Option.none
        exact lookupK_toDict_unrecognized _ _ k hk
      rw [hnonein]
      constructor
      · intro hc
        exact absurd rfl hc
      · intro hdin
        exfalso
        rcases updateIssue_dirty_recognized rec (fromGithub ri) hnd rfl k hdin with ⟨f, hf⟩
        rw [hf] at hk
        cases hk

/-- Witness for C7 at a concrete dirty update. -/
theorem dirty_update_payload_witness :
    (pushStep false exRemote [("number", PyVal.int 1), ("title", PyVal.str ['A'])] =
      .ok ⟨some (.update 1 (dirtyDict (updateIssue (fromGithub exIssue1)
          [("number", PyVal.int 1), ("title", PyVal.str ['A'])]))),
        [{ number := 1, title := ['A'], body := Option.none, assignees := [], labels := [] }],
        [("number", PyVal.int 1), ("title", PyVal.str ['A'])], false⟩) ∧
    ∀ k, k ∈ (dirtyDict (updateIssue (fromGithub exIssue1)
        [("number", PyVal.int 1), ("title", PyVal.str ['A'])])).map Prod.fst ↔
      k ∈ (updateIssue (fromGithub exIssue1)
        [("number", PyVal.int 1), ("title", PyVal.str ['A'])]).dirty :=
  dirty_update_payload exRemote [("number", PyVal.int 1), ("title", PyVal.str ['A'])] 1
    exIssue1
    [{ number := 1, title := ['A'], body := Option.none, assignees := [], labels := [] }]
    (by decide) rfl rfl (by decide) rfl

/-- C8: a creation-path record results in a create action whose payload
is `to_dict(skip_missing=True)`: its keys are exactly the recognised
fields the constructed record specifies, carrying exactly their values —
absent fields are never sent. -/
theorem create_payload_exact (R : RemoteState) (rec : Rec) (ni : Issue) (n : Int)
    (R2 : RemoteState)
    (hnonum : lookupK "number" rec = Option.none)
    (hmk : mkIssue rec = .ok ni)
    (htitle : ni.title ≠ PyVal.none)
    (hcr : createRemote R (toDictSkip ni) = .ok (n, R2)) :
    pushStep false R rec =
      .ok ⟨some (.create (toDictSkip ni)), R2, ("number", PyVal.int n) :: rec, true⟩ ∧
    (∀ name, name ∈ (toDictSkip ni).map Prod.fst ↔
      ∃ f, fieldOfName name = some f ∧ getF ni f ≠ PyVal.none) ∧
    ∀ name v, lookupK name (toDictSkip ni) = some v →
      ∃ f, fieldOfName name = some f ∧ v = getF ni f := by
  refine ⟨?_, ?_, ?_⟩
  · unfold pushStep
    simp [hnonum, hmk, htitle, hcr]
  · intro name
    have hmemiff : name ∈ (toDictSkip ni).map Prod.fst ↔
        lookupK name (toDictSkip ni) ≠ Option.none := by
      rw [Ne, lookupK_eq_none]
      exact not_not.symm
    rw [hmemiff]
    cases hk : fieldOfName name with
    | some f =>
      have hkname : name = fieldName f := (fieldOfName_eq_some _ _).mp hk
      subst hkname
      rw [toDictSkip_lookup]
      by_cases hnone : getF ni f = PyVal.none
      · rw [if_pos hnone]
        constructor
        · intro hc
          exact absurd rfl hc
        · rintro ⟨f', hf', hne⟩
          have hff : f' = f := (Option.some.inj hf').symm
          subst hff
          exact absurd hnone hne
      · rw [if_neg hnone]
        constructor
        · intro _
          exact ⟨f, rfl, hnone⟩
        · intro _
          simp
    | none =>
      have hnonein : lookupK name (toDictSkip ni) = Option.none := by
        show lookupK name ((toDict _).filter _) = Option.none
        exact lookupK_toDict_unrecognized _ _ name hk
      rw [hnonein]
      constructor
      · intro hc
        exact absurd rfl hc
      · rintro ⟨f, hf, _⟩
        cases hf
  · intro name v hv
    cases hk : fieldOfName name with
    | some f =>
      refine ⟨f, rfl, ?_⟩
      have hkname : name = fieldName f := (fieldOfName_eq_some _ _).mp hk
      subst hkname
      rw [toDictSkip_lookup] at hv
      by_cases hnone : getF ni f = PyVal.none
      · rw [if_pos hnone] at hv
        cases hv
      · rw [if_neg hnone] at hv
        exact (Option.some.inj hv).symm
    | none =>
      exfalso
      have hnonein : lookupK name (toDictSkip ni) = Option.none := by
        show lookupK name ((toDict _).filter _) = Option.none
        exact lookupK_toDict_unrecognized _ _ name hk
      rw [hnonein] at hv
      cases hv

/-- Witness for C8 at a concrete creation. -/
theorem create_payload_exact_witness :
    (pushStep false [] [("title", PyVal.str ['X'])] =
      .ok ⟨some (.create (toDictSkip { title := PyVal.str ['X'] })),
        [{ number := 1, title := ['X'], body := Option.none, assignees := [], labels := [] }],
        [("number", PyVal.int 1), ("title", PyVal.str ['X'])], true⟩) ∧
    (∀ name, name ∈ (toDictSkip { title := PyVal.str ['X'] }).map Prod.fst ↔
      ∃ f, fieldOfName name = some f ∧ getF { title := PyVal.str ['X'] } f ≠ PyVal.none) ∧
    ∀ name v, lookupK name (toDictSkip { title := PyVal.str ['X'] }) = some v →
      ∃ f, fieldOfName name = some f ∧ v = getF { title := PyVal.str ['X'] } f :=
  create_payload_exact [] [("title", PyVal.str ['X'])] { title := PyVal.str ['X'] } 1
    [{ number := 1, title := ['X'], body := Option.none, assignees := [], labels := [] }]
    rfl rfl (by decide) rfl

/-- C10: unrecognised field names are tolerated only on the update path —
`Issue.update` skips them — while for a creation candidate (no `number`
key) any unrecognised key makes the dataclass constructor raise, so the
push run fails instead of silently ignoring the key. -/
theorem unrecognized_key_spec :
    (∀ (i : Issue) (k : String) (v : PyVal) (rest : Rec),
        fieldOfName k = Option.none → updateIssue i ((k, v) :: rest) = updateIssue i rest) ∧
    ∀ (d : Bool) (R : RemoteState) (rec : Rec),
      lookupK "number" rec = Option.none →
      (∃ kv ∈ rec, fieldOfName kv.1 = Option.none) →
      ∃ e, pushStep d R rec = .error e := by
  constructor
  · intro i k v rest hk
    simp [updateIssue, hk]
  · intro d R rec hnonum hbad
    rcases setKwargs_error_of_unrecognized rec {} hbad with ⟨e, he⟩
    refine ⟨e, ?_⟩
    unfold pushStep
    simp only [hnonum]
    rw [show mkIssue rec = Except.error e from he]

/-- Witness for C10: a concrete unknown key is skipped by update and
makes a creation fail. -/
theorem unrecognized_key_spec_witness :
    (updateIssue { title := PyVal.str ['A'] }
        [("wat", PyVal.int 0), ("title", PyVal.str ['B'])] =
      updateIssue { title := PyVal.str ['A'] } [("title", PyVal.str ['B'])]) ∧
    ∃ e, pushStep false exRemote [("wat", PyVal.int 0), ("title", PyVal.str ['B'])] = .error e :=
  ⟨unrecognized_key_spec.1 { title := PyVal.str ['A'] } "wat" (PyVal.int 0)
      [("title", PyVal.str ['B'])] (by decide),
   unrecognized_key_spec.2 false exRemote [("wat", PyVal.int 0), ("title", PyVal.str ['B'])]
      rfl ⟨("wat", PyVal.int 0), by decide⟩⟩

/-- C1 counterexample: a file whose two records reference the same issue
number flips the remote back and forth — immediately re-pushing the
records after a successful push still produces an update action. -/
theorem push_idempotent_cex :
    (push false true
        [[("number", PyVal.int 1), ("title", PyVal.str ['A'])],
         [("number", PyVal.int 1), ("title", PyVal.str ['B'])]] exRemote).error = Option.none ∧
    (push false true
        (push false true
          [[("number", PyVal.int 1), ("title", PyVal.str ['A'])],
           [("number", PyVal.int 1), ("title", PyVal.str ['B'])]] exRemote).issues
        (push false true
          [[("number", PyVal.int 1), ("title", PyVal.str ['A'])],
           [("number", PyVal.int 1), ("title", PyVal.str ['B'])]] exRemote).remote).actions
      ≠ [] := by
  decide

/-- C1 (amended): for a file whose records have distinct keys and no
null field values, and whose referenced identifiers are pairwise
distinct and already present in the remote state, a successful
non-dry-run push followed by a second push of the identifier-updated
records against the resulting remote produces zero update and zero
create actions (and changes nothing further). -/
theorem push_idempotent (recs : List Rec) (R0 : RemoteState) (u u' : Bool)
    (hok : ∀ rec ∈ recs, (rec.map Prod.fst).Nodup ∧ ∀ kv ∈ rec, kv.2 ≠ PyVal.none)
    (hrefs : ∀ rec ∈ recs, ∀ m, refNum rec = some m → m ∈ numbersOf R0)
    (hndref : (refNums recs).Nodup)
    (herr : (push false u recs R0).error = Option.none) :
    (push false u' (push false u recs R0).issues (push false u recs R0).remote).actions = [] ∧
    (push false u' (push false u recs R0).issues (push false u recs R0).remote).remote =
      (push false u recs R0).remote ∧
    (push false u' (push false u recs R0).issues (push false u recs R0).remote).error =
      Option.none := by
  have herr' : (pushLoop false R0 recs).error = Option.none := herr
  have hclean : ∀ rec' ∈ (pushLoop false R0 recs).issues,
      CleanAt (pushLoop false R0 recs).remote rec' :=
    loop_all_clean (numbersOf R0) recs R0 hok hrefs hndref ⟨[], by simp⟩ herr'
  have h2 := push_of_all_clean false u' (pushLoop false R0 recs).issues
    (pushLoop false R0 recs).remote hclean
  refine ⟨?_, ?_, ?_⟩
  · show (push false u' (pushLoop false R0 recs).issues
        (pushLoop false R0 recs).remote).actions = []
    rw [h2]
  · show (push false u' (pushLoop false R0 recs).issues
        (pushLoop false R0 recs).remote).remote = (pushLoop false R0 recs).remote
    rw [h2]
  · show (push false u' (pushLoop false R0 recs).issues
        (pushLoop false R0 recs).remote).error = Option.none
    rw [h2]

/-- Witness for the amended C1: creating one issue and re-pushing the
number-annotated record is a no-op. -/
theorem push_idempotent_witness :
    (push false true (push false true [[("title", PyVal.str ['X'])]] []).issues
        (push false true [[("title", PyVal.str ['X'])]] []).remote).actions = [] ∧
    (push false true (push false true [[("title", PyVal.str ['X'])]] []).issues
        (push false true [[("title", PyVal.str ['X'])]] []).remote).remote =
      (push false true [[("title", PyVal.str ['X'])]] []).remote ∧
    (push false true (push false true [[("title", PyVal.str ['X'])]] []).issues
        (push false true [[("title", PyVal.str ['X'])]] []).remote).error = Option.none :=
  push_idempotent [[("title", PyVal.str ['X'])]] [] true true
    (by decide)
    (by
      intro rec hmem m hm
      simp only [List.mem_singleton] at hmem
      subst hmem
      simp [refNum, lookupK] at hm)
    (by decide)
    rfl

/-- C2 counterexample: when the titleless creation candidate is the
second record, the first record's update is already applied to the
remote before the usage error is raised — a remote call was made for
this run despite the error. -/
theorem missing_title_cex :
    (push false true
        [[("number", PyVal.int 1), ("title", PyVal.str ['X'])],
         [("labels", PyVal.list [['b']])]] exRemote).error =
      some "UsageError: All issues must have a title." ∧
    (push false true
        [[("number", PyVal.int 1), ("title", PyVal.str ['X'])],
         [("labels", PyVal.list [['b']])]] exRemote).actions ≠ [] ∧
    (push false true
        [[("number", PyVal.int 1), ("title", PyVal.str ['X'])],
         [("labels", PyVal.list [['b']])]] exRemote).remote ≠ exRemote := by
  decide

/-- C2 (amended): a creation candidate without a title raises a fatal
usage error when the loop reaches it; no remote call is made for that
record or for any later record, and the input file is not rewritten —
but mutations already applied for earlier records of the batch stand. -/
theorem missing_title_aborts (u : Bool) (pre post : List Rec) (bad : Rec) (R : RemoteState)
    (hpre : (pushLoop false R pre).error = Option.none)
    (hnonum : lookupK "number" bad = Option.none)
    (hni : ∃ ni, mkIssue bad = .ok ni ∧ ni.title = PyVal.none) :
    (push false u (pre ++ bad :: post) R).error =
      some "UsageError: All issues must have a title." ∧
    (push false u (pre ++ bad :: post) R).actions = (pushLoop false R pre).actions ∧
    (push false u (pre ++ bad :: post) R).remote = (pushLoop false R pre).remote ∧
    (push false u (pre ++ bad :: post) R).fileWritten = false := by
  rcases hni with ⟨ni, hmk, htitle⟩
  have hstep : pushStep false (pushLoop false R pre).remote bad =
      .error "UsageError: All issues must have a title." := by
    unfold pushStep
    simp only [hnonum, hmk, if_pos htitle]
  have happ := pushLoop_append false pre R (bad :: post) hpre
  rw [pushLoop_cons_error false (pushLoop false R pre).remote bad post _ hstep] at happ
  refine ⟨?_, ?_, ?_, ?_⟩
  · show (pushLoop false R (pre ++ bad :: post)).error = _
    rw [happ]
  · show (pushLoop false R (pre ++ bad :: post)).actions = _
    rw [happ]
    simp
  · show (pushLoop false R (pre ++ bad :: post)).remote = _
    rw [happ]
  · show ((pushLoop false R (pre ++ bad :: post)).error.isNone &&
        (pushLoop false R (pre ++ bad :: post)).newAdded && u) = false
    rw [happ]
    simp

/-- Witness for the amended C2: a batch consisting only of a titleless
record raises immediately, with no action and no remote change. -/
theorem missing_title_aborts_witness :
    (push false true ([] ++ [("labels", PyVal.list [['b']])] :: []) exRemote).error =
      some "UsageError: All issues must have a title." ∧
    (push false true ([] ++ [("labels", PyVal.list [['b']])] :: []) exRemote).actions =
      (pushLoop false exRemote []).actions ∧
    (push false true ([] ++ [("labels", PyVal.list [['b']])] :: []) exRemote).remote =
      (pushLoop false exRemote []).remote ∧
    (push false true ([] ++ [("labels", PyVal.list [['b']])] :: []) exRemote).fileWritten =
      false :=
  missing_title_aborts true [] [] [("labels", PyVal.list [['b']])] exRemote rfl rfl
    ⟨{ labels := PyVal.list [['b']] }, rfl, rfl⟩

/-- C9 counterexample: on a file whose two records reference the same
issue, the dry run describes two update actions where the real push
performs only one — the classifications differ. -/
theorem dry_run_cex :
    (push false true
        [[("number", PyVal.int 1), ("title", PyVal.str ['A'])],
         [("number", PyVal.int 1), ("title", PyVal.str ['A'])]] exRemote).error = Option.none ∧
    (push true true
        [[("number", PyVal.int 1), ("title", PyVal.str ['A'])],
         [("number", PyVal.int 1), ("title", PyVal.str ['A'])]] exRemote).actions ≠
      (push false true
        [[("number", PyVal.int 1), ("title", PyVal.str ['A'])],
         [("number", PyVal.int 1), ("title", PyVal.str ['A'])]] exRemote).actions := by
  decide

/-- A dry-run loop changes nothing regardless of input: the remote, the
record list and the `new_issues_added` flag come through untouched, even
when the loop aborts with an error part-way. -/
theorem dry_loop_frame :
    ∀ (recs : List Rec) (R : RemoteState),
      (pushLoop true R recs).remote = R ∧ (pushLoop true R recs).issues = recs ∧
      (pushLoop true R recs).newAdded = false := by
  intro recs
  induction recs with
  | nil =>
    intro R
    exact ⟨rfl, rfl, rfl⟩
  | cons rec rest ih =>
    intro R
    cases hstep : pushStep true R rec with
    | error e =>
      rw [pushLoop_cons_error true R rec rest e hstep]
      exact ⟨rfl, rfl, rfl⟩
    | ok s =>
      obtain ⟨hr, hrec, hadd⟩ := pushStep_dry_ok R rec s hstep
      obtain ⟨ihr, ihi, ihn⟩ := ih s.remote
      rw [pushLoop_cons_ok true R rec rest s hstep]
      refine ⟨?_, ?_, ?_⟩
      · show (pushLoop true s.remote rest).remote = R
        rw [ihr, hr]
      · show s.record :: (pushLoop true s.remote rest).issues = rec :: rest
        rw [ihi, hrec]
      · show (s.added || (pushLoop true s.remote rest).newAdded) = false
        rw [ihn, hadd]
        rfl

/-- C9 (amended): in dry-run mode, for every input file and remote
state, no remote-mutating call is made, the input file is never
rewritten and the in-memory records are untouched; and provided the
corresponding real push succeeds and the records reference
pairwise-distinct existing issues, the dry run describes exactly the
actions the real push performs. -/
theorem dry_run_parallel :
    (∀ (recs : List Rec) (R0 : RemoteState) (u : Bool),
        (push true u recs R0).remote = R0 ∧
        (push true u recs R0).issues = recs ∧
        (push true u recs R0).fileWritten = false) ∧
    ∀ (recs : List Rec) (R0 : RemoteState) (u u' : Bool),
      (∀ rec ∈ recs, ∀ m, refNum rec = some m → (findIssue m R0).isSome) →
      (refNums recs).Nodup →
      (push false u' recs R0).error = Option.none →
      (push true u recs R0).actions = (push false u' recs R0).actions ∧
      (push true u recs R0).error = Option.none := by
  constructor
  · intro recs R0 u
    obtain ⟨hr, hi, hn⟩ := dry_loop_frame recs R0
    refine ⟨hr, hi, ?_⟩
    show ((pushLoop true R0 recs).error.isNone && (pushLoop true R0 recs).newAdded && u) = false
    rw [hn]
    simp
  · intro recs R0 u u' hrefs hndref herr
    have herr' : (pushLoop false R0 recs).error = Option.none := herr
    obtain ⟨ha, _, _, _, he⟩ := loop_parallel R0 recs R0
      (fun rec hm m h => ⟨rfl, hrefs rec hm m h⟩) hndref herr'
    exact ⟨ha, he⟩

/-- Witness for the amended C9: the unconditional frame part at a file
the real push would reject (a titleless record), and the
classification part at a concrete one-record update. -/
theorem dry_run_parallel_witness :
    ((push true true [[("labels", PyVal.list [['b']])]] exRemote).remote = exRemote ∧
     (push true true [[("labels", PyVal.list [['b']])]] exRemote).issues =
       [[("labels", PyVal.list [['b']])]] ∧
     (push true true [[("labels", PyVal.list [['b']])]] exRemote).fileWritten = false) ∧
    ((push true true [[("number", PyVal.int 1), ("title", PyVal.str ['A'])]] exRemote).actions =
      (push false true [[("number", PyVal.int 1), ("title", PyVal.str ['A'])]] exRemote).actions ∧
     (push true true [[("number", PyVal.int 1), ("title", PyVal.str ['A'])]] exRemote).error =
       Option.none) :=
  ⟨dry_run_parallel.1 [[("labels", PyVal.list [['b']])]] exRemote true,
   dry_run_parallel.2 [[("number", PyVal.int 1), ("title", PyVal.str ['A'])]] exRemote true true
     (by
       intro rec hmem m hm
       simp only [List.mem_singleton] at hmem
       subst hmem
       simp [refNum, lookupK] at hm
       subst hm
       decide)
     (by decide)
     rfl⟩

end GhSync
